import Mathlib

/-!
Verification of the `net_neurons` scalar autodiff engine
(`src/nnetwork/gradval.rs`).

The Rust code stores computation-graph nodes as `Rc<RefCell<Gv>>`, where
`Gv` has fields `_val : f32`, `_grad : Option<f32>` and `_op : GradValOp`.
We embed this shallowly:

* A node cell lives at a `Nat` address in a `Heap := Nat → Cell`; the
  public handle type `GradVal` (which wraps an `Rc`) is modelled by the
  address of its cell.  Cloning a handle duplicates the address, so two
  handles may alias the same cell, exactly as two `Rc` clones do.
* Scalars are modelled by `ℝ`.  The Rust code computes with `f32`; the
  embedding performs the same operations over the exact reals, i.e. IEEE
  rounding and the non-finite values (`inf`/`NaN`) are abstracted.
  `f32::powf` is modelled by `Real.rpow`, `f32::ln` by `Real.log`,
  `f32::exp` by `Real.exp`.
* Each cell carries the `RefCell` borrow flag.  `borrow_mut()` is modelled
  by `borrowMut` (fails unless the flag is `free`), `borrow()` by
  `borrowShared`/`readVal` (fails when the flag is `mutb`).  A failed
  borrow is a Rust panic, modelled by `BRes.abort`.  Borrows that the
  source acquires and drops inside a single `let` statement
  (e.g. `let g = a.borrow()._val.exp();`) are modelled by the pure
  `readVal`, since the flag returns to its previous state before anything
  else runs; borrows whose temporary lives across a recursive call (the
  receiver and argument temporaries inside the `Mul` arm of
  `calc_grad_recursively`) are modelled explicitly with
  `borrowMut`/`borrowShared` and matching releases, following Rust's
  evaluation order: the receiver of a method call is evaluated before its
  arguments, and both temporaries live until the end of the statement.
* Recursive traversals take explicit fuel; `BRes.fuelOut` marks fuel
  exhaustion (an artifact of the embedding, never produced by the Rust
  code on the acyclic graphs the API builds, given enough fuel).
-/

/-- `GradValOp` from the source: the operation a node originated from.
Ancestor `Rc` references are modelled by heap addresses. -/
inductive GradValOp where
  | Noop : GradValOp
  | Neg (a : Nat) : GradValOp
  | Exp (a : Nat) : GradValOp
  | Log (a : Nat) : GradValOp
  | Pow (a b : Nat) : GradValOp
  | Add (a b : Nat) : GradValOp
  | Sub (a b : Nat) : GradValOp
  | Mul (a b : Nat) : GradValOp
  | Div (a b : Nat) : GradValOp
deriving DecidableEq, Repr

/-- The operand addresses of an operation, in the order the source
traverses them. -/
def GradValOp.kids : GradValOp → List Nat
  | .Noop => []
  | .Neg a | .Exp a | .Log a => [a]
  | .Pow a b | .Add a b | .Sub a b | .Mul a b | .Div a b => [a, b]

/-- The struct `Gv`: `_val`, `_grad`, `_op`. -/
structure Gv where
  val : ℝ
  grad : Option ℝ
  op : GradValOp

/-- The dynamic borrow state of a `RefCell`: no borrow, `n + 1`
outstanding `Ref`s, or one outstanding `RefMut`. -/
inductive BorrowFlag where
  | free : BorrowFlag
  | shared (n : Nat) : BorrowFlag
  | mutb : BorrowFlag
deriving DecidableEq, Repr

/-- One `Rc<RefCell<Gv>>` cell: the node plus its borrow flag. -/
structure Cell where
  node : Gv
  flag : BorrowFlag

/-- The fresh cell a constructor allocates: grad `None`, flag free. -/
def Cell.fresh (v : ℝ) (op : GradValOp) : Cell :=
  ⟨⟨v, none, op⟩, .free⟩

instance : Inhabited Cell := ⟨Cell.fresh 0 .Noop⟩

/-- The store of cells, addressed by `Nat`. -/
def Heap : Type := Nat → Cell

/-- Pointwise update of the heap. -/
def updCell (h : Heap) (i : Nat) (c : Cell) : Heap :=
  fun j => if j = i then c else h j

/-- The `_val` field of the cell at address `i`. -/
def valOf (h : Heap) (i : Nat) : ℝ := (h i).node.val

/-- The `_grad` field of the cell at address `i`. -/
def gradOf (h : Heap) (i : Nat) : Option ℝ := (h i).node.grad

/-- The `_op` field of the cell at address `i`. -/
def opOf (h : Heap) (i : Nat) : GradValOp := (h i).node.op

/-- The borrow flag of the cell at address `i`. -/
def flagOf (h : Heap) (i : Nat) : BorrowFlag := (h i).flag

/-- Overwrite only the `_grad` field of cell `i`. -/
def setGrad (h : Heap) (i : Nat) (g : Option ℝ) : Heap :=
  updCell h i ⟨⟨valOf h i, g, opOf h i⟩, flagOf h i⟩

/-- Overwrite only the borrow flag of cell `i`. -/
def setFlag (h : Heap) (i : Nat) (f : BorrowFlag) : Heap :=
  updCell h i ⟨⟨valOf h i, gradOf h i, opOf h i⟩, f⟩

/-- `RefCell::borrow_mut` on cell `i`: succeeds only when no borrow is
active, marking the cell mutably borrowed; otherwise the Rust code
panics (`none`). -/
def borrowMut (h : Heap) (i : Nat) : Option Heap :=
  match flagOf h i with
  | .free => some (setFlag h i .mutb)
  | _ => none

/-- Acquiring one more shared borrow: fails when mutably borrowed. -/
def sharedInc : BorrowFlag → Option BorrowFlag
  | .free => some (.shared 0)
  | .shared n => some (.shared (n + 1))
  | .mutb => none

/-- Dropping one shared borrow. -/
def sharedDec : BorrowFlag → BorrowFlag
  | .shared 0 => .free
  | .shared (n + 1) => .shared n
  | f => f

/-- `RefCell::borrow` on cell `i` where the returned `Ref` outlives the
expression: succeeds unless the cell is mutably borrowed. -/
def borrowShared (h : Heap) (i : Nat) : Option Heap :=
  match sharedInc (flagOf h i) with
  | some f => some (setFlag h i f)
  | none => none

/-- Dropping the `RefMut` of cell `i`. -/
def releaseMut (h : Heap) (i : Nat) : Heap := setFlag h i .free

/-- Dropping one `Ref` of cell `i`. -/
def releaseShared (h : Heap) (i : Nat) : Heap :=
  setFlag h i (sharedDec (flagOf h i))

/-- `x.borrow()._val` inside a single `let` statement: the `Ref` is
acquired and dropped within the statement, so the flag is unchanged
afterwards; the read still panics (`none`) if the cell is mutably
borrowed. -/
def readVal (h : Heap) (i : Nat) : Option ℝ :=
  match flagOf h i with
  | .mutb => none
  | _ => some (valOf h i)

/-- Result of running a fragment of the engine: normal termination,
a Rust panic, or fuel exhaustion (embedding artifact only). -/
inductive BRes (α : Type) where
  | ok (a : α) : BRes α
  | abort : BRes α
  | fuelOut : BRes α
deriving Repr

/-- `Gv::reset_grad_recursively`, including the `borrow_mut` the caller
performs on the receiver: sets `_grad = None`, then recurses into the
operands in source order. -/
def resetGradRecursively : Nat → Nat → Heap → BRes Heap
  | 0, _, _ => .fuelOut
  | fuel + 1, i, h =>
    match borrowMut h i with
    | none => .abort
    | some h1 =>
      let h2 := setGrad h1 i none
      match opOf h2 i with
      | .Noop => .ok (releaseMut h2 i)
      | .Neg a | .Exp a | .Log a =>
        match resetGradRecursively fuel a h2 with
        | .ok h3 => .ok (releaseMut h3 i)
        | e => e
      | .Pow a b | .Add a b | .Sub a b | .Mul a b | .Div a b =>
        match resetGradRecursively fuel a h2 with
        | .ok h3 =>
          match resetGradRecursively fuel b h3 with
          | .ok h4 => .ok (releaseMut h4 i)
          | e => e
        | e => e

/-- `Gv::calc_grad_recursively`.  With `acquire = true` this models the
full call `cell.borrow_mut().calc_grad_recursively(g)` (receiver borrow
included); with `acquire = false` it models just the method body, used
by the `Mul` arm where the source interleaves the receiver borrow with a
shared borrow of the other operand inside one statement.  The
`println!` in the `Pow` arm is I/O only and is not modelled. -/
noncomputable def calcGradAux : Nat → Bool → Nat → ℝ → Heap → BRes Heap
  | 0, _, _, _, _ => .fuelOut
  | fuel + 1, true, i, g, h =>
    match borrowMut h i with
    | none => .abort
    | some h1 =>
      match calcGradAux fuel false i g h1 with
      | .ok h2 => .ok (releaseMut h2 i)
      | e => e
  | fuel + 1, false, i, g, h =>
    let h1 := setGrad h i (some ((gradOf h i).getD 0 + g))
    match opOf h1 i with
    | .Noop => .ok h1
    | .Neg a => calcGradAux fuel true a (-g) h1
    | .Exp a =>
      match readVal h1 a with
      | none => .abort
      | some av => calcGradAux fuel true a (Real.exp av * g) h1
    | .Log a =>
      match readVal h1 a with
      | none => .abort
      | some av => calcGradAux fuel true a (1 / av * g) h1
    | .Pow a b =>
      match readVal h1 a with
      | none => .abort
      | some av =>
        match readVal h1 b with
        | none => .abort
        | some bv =>
          match calcGradAux fuel true a (bv * Real.rpow av (bv - 1) * g) h1 with
          | .ok h2 => calcGradAux fuel true b (Real.log av * Real.rpow av bv * g) h2
          | e => e
    | .Add a b =>
      match calcGradAux fuel true a g h1 with
      | .ok h2 => calcGradAux fuel true b g h2
      | e => e
    | .Sub a b =>
      match calcGradAux fuel true a g h1 with
      | .ok h2 => calcGradAux fuel true b (-g) h2
      | e => e
    | .Mul a b =>
      match borrowMut h1 a with
      | none => .abort
      | some h2 =>
        match borrowShared h2 b with
        | none => .abort
        | some h3 =>
          match calcGradAux fuel false a (g * valOf h3 b) h3 with
          | .ok h4 =>
            let h5 := releaseMut (releaseShared h4 b) a
            match borrowMut h5 b with
            | none => .abort
            | some h6 =>
              match borrowShared h6 a with
              | none => .abort
              | some h7 =>
                match calcGradAux fuel false b (g * valOf h7 a) h7 with
                | .ok h8 => .ok (releaseMut (releaseShared h8 a) b)
                | e => e
          | e => e
    | .Div a b =>
      match readVal h1 a with
      | none => .abort
      | some av =>
        match readVal h1 b with
        | none => .abort
        | some bv =>
          match calcGradAux fuel true a (g / bv) h1 with
          | .ok h2 => calcGradAux fuel true b (-av / bv ^ 2 * g) h2
          | e => e

/-- The full call `cell.borrow_mut().calc_grad_recursively(g)`. -/
noncomputable def calcGradRecursively (fuel : Nat) (i : Nat) (g : ℝ) (h : Heap) : BRes Heap :=
  calcGradAux fuel true i g h

/-- `GradVal::backward`: a reset pass followed by an accumulation pass
seeded with gradient `1.0`. -/
noncomputable def backward (fuel : Nat) (h : Heap) (r : Nat) : BRes Heap :=
  match resetGradRecursively fuel r h with
  | .ok h1 => calcGradRecursively fuel r 1 h1
  | e => e

/-- The allocation state behind the public constructors: the heap plus
the next fresh address. -/
structure Store where
  heap : Heap
  next : Nat

/-- The empty store. -/
def emptyStore : Store := ⟨fun _ => default, 0⟩

/-- Allocate a new node (`Gv::from_op` wrapped in `Rc::new(RefCell::new …)`),
returning the new store and the handle to the new cell. -/
def alloc (s : Store) (v : ℝ) (op : GradValOp) : Store × Nat :=
  (⟨updCell s.heap s.next (Cell.fresh v op), s.next + 1⟩, s.next)

/-- `GradVal::from(value)`: a leaf node. -/
def mkLeaf (s : Store) (v : ℝ) : Store × Nat := alloc s v .Noop

/-- `Neg for &GradVal`. -/
def mkNeg (s : Store) (i : Nat) : Store × Nat :=
  alloc s (-valOf s.heap i) (.Neg i)

/-- `Add for &GradVal`. -/
def mkAdd (s : Store) (i j : Nat) : Store × Nat :=
  alloc s (valOf s.heap i + valOf s.heap j) (.Add i j)

/-- `Sub for &GradVal`. -/
def mkSub (s : Store) (i j : Nat) : Store × Nat :=
  alloc s (valOf s.heap i - valOf s.heap j) (.Sub i j)

/-- `Mul for &GradVal`. -/
def mkMul (s : Store) (i j : Nat) : Store × Nat :=
  alloc s (valOf s.heap i * valOf s.heap j) (.Mul i j)

/-- `Div for &GradVal`: panics (`abort`) when the divisor's current value
is exactly zero, otherwise allocates the quotient node. -/
noncomputable def mkDiv (s : Store) (i j : Nat) : BRes (Store × Nat) :=
  if valOf s.heap j = 0 then .abort
  else .ok (alloc s (valOf s.heap i / valOf s.heap j) (.Div i j))

/-- `GradVal::exp`. -/
noncomputable def mkExp (s : Store) (i : Nat) : Store × Nat :=
  alloc s (Real.exp (valOf s.heap i)) (.Exp i)

/-- `GradVal::log`. -/
noncomputable def mkLog (s : Store) (i : Nat) : Store × Nat :=
  alloc s (Real.log (valOf s.heap i)) (.Log i)

/-- `GradVal::pow`. -/
noncomputable def mkPow (s : Store) (i j : Nat) : Store × Nat :=
  alloc s (Real.rpow (valOf s.heap i) (valOf s.heap j)) (.Pow i j)

/-- `GradVal::powf`: wraps the raw exponent into a leaf and delegates to
`pow`. -/
noncomputable def mkPowf (s : Store) (i : Nat) (c : ℝ) : Store × Nat :=
  let p := mkLeaf s c
  mkPow p.1 i p.2

/-- The concrete scenario of the shared-node claim:
`let x = GradVal::from(3.0); let mut y = &x * &x;`.  The handle `x` is
address `0`, the product `y` is address `1`, and both `Mul` operands are
the same cell `0`. -/
def sharedMulStore : Store :=
  let p := mkLeaf emptyStore 3
  (mkMul p.1 p.2 p.2).1

/-! ## Reachability, agreement predicates, example graphs -/

/-- One antecedent step in the computation graph. -/
def Steps (h : Heap) (u v : Nat) : Prop := v ∈ (opOf h u).kids

/-- `Reaches h r i`: node `i` is in the subgraph reachable from `r` by
following the operation links (reflexively and transitively); this is
what "the differentiated subgraph of root `r`" means. -/
def Reaches (h : Heap) : Nat → Nat → Prop := Relation.ReflTransGen (Steps h)


/-- Two heaps agree on everything except possibly the `_grad` fields. -/
def SideAgree (h k : Heap) : Prop :=
  (∀ j, valOf h j = valOf k j) ∧ (∀ j, opOf h j = opOf k j) ∧
  (∀ j, flagOf h j = flagOf k j)

/-- The `_grad` fields of the two heaps agree outside the index set `D`. -/
def GradAgree (D : Nat → Prop) (h k : Heap) : Prop :=
  ∀ j, ¬ D j → gradOf h j = gradOf k j

/-- A run starting at node `i` leaves the `_val` and `_op` fields of every
cell unchanged, restores every borrow flag, and leaves the `_grad` fields
of all nodes outside the subgraph of `i` unchanged. -/
def FrameOK (i : Nat) (h h' : Heap) : Prop :=
  (∀ j, valOf h' j = valOf h j) ∧ (∀ j, opOf h' j = opOf h j) ∧
  (∀ j, flagOf h' j = flagOf h j) ∧
  (∀ j, ¬ Reaches h i j → gradOf h' j = gradOf h j)


/-! ## Concrete example graphs and the constructibility predicate -/

/-- The chain `x.exp().log()`: `x` at address `0` (value `v`), `exp` at
`1`, `log` at `2`. -/
noncomputable def chainStore (v : ℝ) : Store :=
  let p := mkLeaf emptyStore v
  let q := mkExp p.1 p.2
  (mkLog q.1 q.2).1

/-- Two leaves `2.0` (address `0`) and `5.0` (address `1`), their sum at
address `2` and their product at address `3`: a graph with two roots
sharing both leaves. -/
def addMulStore : Store :=
  let p := mkLeaf emptyStore 2
  let q := mkLeaf p.1 5
  let r := mkAdd q.1 p.2 q.2
  (mkMul r.1 p.2 q.2).1

/-- Two leaves `6.0` (address `0`) and `2.0` (address `1`), ready for a
division. -/
def divStore : Store :=
  let p := mkLeaf emptyStore 6
  (mkLeaf p.1 2).1

/-- A heap with leaves at `0` (value `-2`) and `1` (value `3`) and a
`Pow` node at `2`; the base value is deliberately negative. -/
noncomputable def powHeap : Heap :=
  (mkPow (mkLeaf (mkLeaf emptyStore (-2)).1 3).1 0 1).1.heap

/-- The stores reachable through the public constructor API (including
running `backward` on any handle): exactly the graphs external code can
build. -/
inductive Built : Store → Prop where
  | empty : Built emptyStore
  | leaf (s : Store) (v : ℝ) : Built s → Built (mkLeaf s v).1
  | neg (s : Store) (i : Nat) : Built s → Built (mkNeg s i).1
  | add (s : Store) (i j : Nat) : Built s → Built (mkAdd s i j).1
  | sub (s : Store) (i j : Nat) : Built s → Built (mkSub s i j).1
  | mul (s : Store) (i j : Nat) : Built s → Built (mkMul s i j).1
  | exp (s : Store) (i : Nat) : Built s → Built (mkExp s i).1
  | log (s : Store) (i : Nat) : Built s → Built (mkLog s i).1
  | pow (s : Store) (i j : Nat) : Built s → Built (mkPow s i j).1
  | powf (s : Store) (i : Nat) (c : ℝ) : Built s → Built (mkPowf s i c).1
  | div (s : Store) (i j : Nat) (st : Store) (k : Nat) : Built s →
      j < s.next → mkDiv s i j = .ok (st, k) → Built st
  | bwd (s : Store) (r fuel : Nat) (h' : Heap) : Built s →
      backward fuel s.heap r = .ok h' → Built ⟨h', s.next⟩

/-- Every `Div` node in the store references a divisor cell that was
allocated earlier and whose value is nonzero. -/
def DivBound (s : Store) : Prop :=
  ∀ i a b, opOf s.heap i = .Div a b → b < s.next ∧ valOf s.heap b ≠ 0


/-- The heap after entering the body of `calc_grad_recursively` on cell
`i` with incoming gradient `p`: receiver mutably borrowed, gradient
accumulated. -/
noncomputable def calcEnter (h : Heap) (i : Nat) (p : ℝ) : Heap :=
  setGrad (setFlag h i .mutb) i (some ((gradOf h i).getD 0 + p))

/-- The heap after a complete call of `calc_grad_recursively` on a leaf
(`Noop`) cell `i` with incoming gradient `p`. -/
noncomputable def leafStep (h : Heap) (i : Nat) (p : ℝ) : Heap :=
  releaseMut (calcEnter h i p) i


/-! ## Basic heap lemmas -/

theorem valOf_updCell (h : Heap) (i : Nat) (c : Cell) (j : Nat) :
    valOf (updCell h i c) j = if j = i then c.node.val else valOf h j := by
  unfold valOf updCell
  split <;> rfl

theorem gradOf_updCell (h : Heap) (i : Nat) (c : Cell) (j : Nat) :
    gradOf (updCell h i c) j = if j = i then c.node.grad else gradOf h j := by
  unfold gradOf updCell
  split <;> rfl

theorem opOf_updCell (h : Heap) (i : Nat) (c : Cell) (j : Nat) :
    opOf (updCell h i c) j = if j = i then c.node.op else opOf h j := by
  unfold opOf updCell
  split <;> rfl

theorem flagOf_updCell (h : Heap) (i : Nat) (c : Cell) (j : Nat) :
    flagOf (updCell h i c) j = if j = i then c.flag else flagOf h j := by
  unfold flagOf updCell
  split <;> rfl

@[simp] theorem valOf_setGrad (h : Heap) (i : Nat) (g : Option ℝ) (j : Nat) :
    valOf (setGrad h i g) j = valOf h j := by
  unfold setGrad
  rw [valOf_updCell]
  split <;> simp_all

@[simp] theorem opOf_setGrad (h : Heap) (i : Nat) (g : Option ℝ) (j : Nat) :
    opOf (setGrad h i g) j = opOf h j := by
  unfold setGrad
  rw [opOf_updCell]
  split <;> simp_all

@[simp] theorem flagOf_setGrad (h : Heap) (i : Nat) (g : Option ℝ) (j : Nat) :
    flagOf (setGrad h i g) j = flagOf h j := by
  unfold setGrad
  rw [flagOf_updCell]
  split <;> simp_all

theorem gradOf_setGrad (h : Heap) (i : Nat) (g : Option ℝ) (j : Nat) :
    gradOf (setGrad h i g) j = if j = i then g else gradOf h j := by
  unfold setGrad
  rw [gradOf_updCell]

@[simp] theorem gradOf_setGrad_same (h : Heap) (i : Nat) (g : Option ℝ) :
    gradOf (setGrad h i g) i = g := by
  rw [gradOf_setGrad]
  simp

theorem gradOf_setGrad_ne (h : Heap) (i : Nat) (g : Option ℝ) (j : Nat) (hj : j ≠ i) :
    gradOf (setGrad h i g) j = gradOf h j := by
  rw [gradOf_setGrad, if_neg hj]

@[simp] theorem valOf_setFlag (h : Heap) (i : Nat) (f : BorrowFlag) (j : Nat) :
    valOf (setFlag h i f) j = valOf h j := by
  unfold setFlag
  rw [valOf_updCell]
  split <;> simp_all

@[simp] theorem opOf_setFlag (h : Heap) (i : Nat) (f : BorrowFlag) (j : Nat) :
    opOf (setFlag h i f) j = opOf h j := by
  unfold setFlag
  rw [opOf_updCell]
  split <;> simp_all

@[simp] theorem gradOf_setFlag (h : Heap) (i : Nat) (f : BorrowFlag) (j : Nat) :
    gradOf (setFlag h i f) j = gradOf h j := by
  unfold setFlag
  rw [gradOf_updCell]
  split <;> simp_all

theorem flagOf_setFlag (h : Heap) (i : Nat) (f : BorrowFlag) (j : Nat) :
    flagOf (setFlag h i f) j = if j = i then f else flagOf h j := by
  unfold setFlag
  rw [flagOf_updCell]

@[simp] theorem flagOf_setFlag_same (h : Heap) (i : Nat) (f : BorrowFlag) :
    flagOf (setFlag h i f) i = f := by
  rw [flagOf_setFlag]
  simp

theorem flagOf_setFlag_ne (h : Heap) (i : Nat) (f : BorrowFlag) (j : Nat) (hj : j ≠ i) :
    flagOf (setFlag h i f) j = flagOf h j := by
  rw [flagOf_setFlag, if_neg hj]

@[simp] theorem valOf_releaseMut (h : Heap) (i : Nat) (j : Nat) :
    valOf (releaseMut h i) j = valOf h j := by
  unfold releaseMut
  simp

@[simp] theorem opOf_releaseMut (h : Heap) (i : Nat) (j : Nat) :
    opOf (releaseMut h i) j = opOf h j := by
  unfold releaseMut
  simp

@[simp] theorem gradOf_releaseMut (h : Heap) (i : Nat) (j : Nat) :
    gradOf (releaseMut h i) j = gradOf h j := by
  unfold releaseMut
  simp

theorem flagOf_releaseMut (h : Heap) (i : Nat) (j : Nat) :
    flagOf (releaseMut h i) j = if j = i then .free else flagOf h j := by
  unfold releaseMut
  rw [flagOf_setFlag]

@[simp] theorem valOf_releaseShared (h : Heap) (i : Nat) (j : Nat) :
    valOf (releaseShared h i) j = valOf h j := by
  unfold releaseShared
  simp

@[simp] theorem opOf_releaseShared (h : Heap) (i : Nat) (j : Nat) :
    opOf (releaseShared h i) j = opOf h j := by
  unfold releaseShared
  simp

@[simp] theorem gradOf_releaseShared (h : Heap) (i : Nat) (j : Nat) :
    gradOf (releaseShared h i) j = gradOf h j := by
  unfold releaseShared
  simp

theorem flagOf_releaseShared (h : Heap) (i : Nat) (j : Nat) :
    flagOf (releaseShared h i) j = if j = i then sharedDec (flagOf h i) else flagOf h j := by
  unfold releaseShared
  rw [flagOf_setFlag]

theorem sharedDec_sharedInc {f f' : BorrowFlag} (hf : sharedInc f = some f') :
    sharedDec f' = f := by
  cases f <;> simp [sharedInc] at hf <;> subst hf <;> rfl

theorem sharedInc_ne_mutb {f f' : BorrowFlag} (hf : sharedInc f = some f') :
    f' ≠ .mutb := by
  cases f <;> simp [sharedInc] at hf <;> subst hf <;> simp

theorem borrowMut_ok {h h' : Heap} {i : Nat} (hb : borrowMut h i = some h') :
    flagOf h i = .free ∧ h' = setFlag h i .mutb := by
  unfold borrowMut at hb
  split at hb
  · exact ⟨by assumption, by injection hb with hb; exact hb.symm⟩
  · exact absurd hb (by simp)

theorem borrowShared_ok {h h' : Heap} {i : Nat} (hb : borrowShared h i = some h') :
    ∃ f', sharedInc (flagOf h i) = some f' ∧ h' = setFlag h i f' := by
  unfold borrowShared at hb
  split at hb
  · exact ⟨_, by assumption, by injection hb with hb; exact hb.symm⟩
  · exact absurd hb (by simp)

theorem readVal_ok {h : Heap} {i : Nat} {v : ℝ} (hr : readVal h i = some v) :
    v = valOf h i := by
  unfold readVal at hr
  split at hr
  · exact absurd hr (by simp)
  · injection hr with hr
    exact hr.symm

/-! ## Reachability through the operation links -/

theorem Reaches.refl (h : Heap) (i : Nat) : Reaches h i i :=
  Relation.ReflTransGen.refl

theorem Reaches.of_kid {h : Heap} {u v : Nat} (hv : v ∈ (opOf h u).kids) :
    Reaches h u v :=
  Relation.ReflTransGen.single hv

theorem Reaches.trans {h : Heap} {u v w : Nat} (h1 : Reaches h u v)
    (h2 : Reaches h v w) : Reaches h u w :=
  Relation.ReflTransGen.trans h1 h2

theorem reaches_congr {h h' : Heap} (hop : ∀ j, opOf h j = opOf h' j)
    {u v : Nat} (hr : Reaches h u v) : Reaches h' u v := by
  induction hr with
  | refl => exact Reaches.refl h' u
  | tail _ hs ih =>
    refine Relation.ReflTransGen.tail ih ?_
    unfold Steps at hs ⊢
    rw [← hop]
    exact hs

theorem reaches_cases_head {h : Heap} {u v : Nat} (hr : Reaches h u v) :
    u = v ∨ ∃ c, c ∈ (opOf h u).kids ∧ Reaches h c v := by
  rcases Relation.ReflTransGen.cases_head hr with h1 | ⟨c, hc, hr'⟩
  · exact Or.inl h1
  · exact Or.inr ⟨c, hc, hr'⟩

/-! ## Agreement predicates -/

theorem heap_ext {h k : Heap} (hs : SideAgree h k)
    (hg : ∀ j, gradOf h j = gradOf k j) : h = k := by
  funext j
  obtain ⟨hv, ho, hf⟩ := hs
  have e1 : h j = ⟨⟨valOf h j, gradOf h j, opOf h j⟩, flagOf h j⟩ := rfl
  have e2 : k j = ⟨⟨valOf k j, gradOf k j, opOf k j⟩, flagOf k j⟩ := rfl
  rw [e1, e2, hv, ho, hf, hg]

theorem reaches_of_ops_eq {h h' : Heap} (hop : ∀ j, opOf h j = opOf h' j)
    {u v : Nat} : Reaches h u v ↔ Reaches h' u v :=
  ⟨reaches_congr hop, reaches_congr (fun j => (hop j).symm)⟩

theorem reaches_prep {h : Heap} {i : Nat} {g : Option ℝ} {u v : Nat}
    (hr : Reaches (setGrad (setFlag h i .mutb) i g) u v) : Reaches h u v :=
  reaches_congr (fun j => by simp) hr

theorem reset_frame_unary {f i a : Nat} {h h' : Heap}
    (ih : ∀ (i : Nat) (hh hh' : Heap), resetGradRecursively f i hh = .ok hh' → FrameOK i hh hh')
    (hfree : flagOf h i = .free) (hka : Reaches h i a)
    (hc : (match resetGradRecursively f a (setGrad (setFlag h i .mutb) i none) with
           | .ok h3 => BRes.ok (releaseMut h3 i)
           | e => e) = .ok h') : FrameOK i h h' := by
  split at hc
  · next h3 hr1 =>
    simp only [BRes.ok.injEq] at hc
    subst hc
    obtain ⟨iv, io, ifl, ig⟩ := ih _ _ _ hr1
    refine ⟨fun j => by simp [iv], fun j => by simp [io], fun j => ?_, fun j hj => ?_⟩
    · rw [flagOf_releaseMut]
      split
      · next he => rw [he, hfree]
      · next he => rw [ifl, flagOf_setGrad, flagOf_setFlag_ne _ _ _ _ he]
    · have hji : j ≠ i := fun he => hj (he ▸ Reaches.refl h i)
      have hja : ¬ Reaches (setGrad (setFlag h i .mutb) i none) a j :=
        fun hr => hj (Reaches.trans hka (reaches_prep hr))
      rw [gradOf_releaseMut, ig j hja, gradOf_setGrad_ne _ _ _ _ hji, gradOf_setFlag]
  · next hcontra => exact (hcontra h' hc).elim

theorem reset_frame_binary {f i a b : Nat} {h h' : Heap}
    (ih : ∀ (i : Nat) (hh hh' : Heap), resetGradRecursively f i hh = .ok hh' → FrameOK i hh hh')
    (hfree : flagOf h i = .free) (hka : Reaches h i a) (hkb : Reaches h i b)
    (hc : (match resetGradRecursively f a (setGrad (setFlag h i .mutb) i none) with
           | .ok h3 =>
             match resetGradRecursively f b h3 with
             | .ok h4 => BRes.ok (releaseMut h4 i)
             | e => e
           | e => e) = .ok h') : FrameOK i h h' := by
  split at hc
  · next h3 hr1 =>
    split at hc
    · next h4 hr2 =>
      simp only [BRes.ok.injEq] at hc
      subst hc
      obtain ⟨iv1, io1, ifl1, ig1⟩ := ih _ _ _ hr1
      obtain ⟨iv2, io2, ifl2, ig2⟩ := ih _ _ _ hr2
      refine ⟨fun j => by simp [iv2, iv1], fun j => by simp [io2, io1], fun j => ?_,
        fun j hj => ?_⟩
      · rw [flagOf_releaseMut]
        split
        · next he => rw [he, hfree]
        · next he => rw [ifl2, ifl1, flagOf_setGrad, flagOf_setFlag_ne _ _ _ _ he]
      · have hji : j ≠ i := fun he => hj (he ▸ Reaches.refl h i)
        have hja : ¬ Reaches (setGrad (setFlag h i .mutb) i none) a j :=
          fun hr => hj (Reaches.trans hka (reaches_prep hr))
        have hjb : ¬ Reaches h3 b j :=
          fun hr => hj (Reaches.trans hkb (reaches_prep (reaches_congr io1 hr)))
        rw [gradOf_releaseMut, ig2 j hjb, ig1 j hja, gradOf_setGrad_ne _ _ _ _ hji,
          gradOf_setFlag]
    · next hcontra => exact (hcontra h' hc).elim
  · next hcontra => exact (hcontra h' hc).elim

set_option maxHeartbeats 1000000 in
theorem reset_frame : ∀ (fuel i : Nat) (h h' : Heap),
    resetGradRecursively fuel i h = .ok h' → FrameOK i h h' := by
  intro fuel
  induction fuel with
  | zero =>
    intro i h h' hc
    exact absurd hc (by simp [resetGradRecursively])
  | succ f ih =>
    intro i h h' hc
    rw [resetGradRecursively] at hc
    split at hc
    · exact absurd hc (by simp)
    · next h1 heq =>
      obtain ⟨hfree, rfl⟩ := borrowMut_ok heq
      simp only [opOf_setGrad, opOf_setFlag] at hc
      split at hc
      · next hop =>
        simp only [BRes.ok.injEq] at hc
        subst hc
        refine ⟨fun j => by simp, fun j => by simp, fun j => ?_, fun j hj => ?_⟩
        · rw [flagOf_releaseMut]
          split
          · next he => rw [he, hfree]
          · next he => rw [flagOf_setGrad, flagOf_setFlag_ne _ _ _ _ he]
        · have hji : j ≠ i := fun he => hj (he ▸ Reaches.refl h i)
          rw [gradOf_releaseMut, gradOf_setGrad_ne _ _ _ _ hji, gradOf_setFlag]
      · next a hop =>
        exact reset_frame_unary ih hfree
          (Reaches.of_kid (by rw [hop]; simp [GradValOp.kids])) hc
      · next a hop =>
        exact reset_frame_unary ih hfree
          (Reaches.of_kid (by rw [hop]; simp [GradValOp.kids])) hc
      · next a hop =>
        exact reset_frame_unary ih hfree
          (Reaches.of_kid (by rw [hop]; simp [GradValOp.kids])) hc
      · next a b hop =>
        exact reset_frame_binary ih hfree
          (Reaches.of_kid (by rw [hop]; simp [GradValOp.kids]))
          (Reaches.of_kid (by rw [hop]; simp [GradValOp.kids])) hc
      · next a b hop =>
        exact reset_frame_binary ih hfree
          (Reaches.of_kid (by rw [hop]; simp [GradValOp.kids]))
          (Reaches.of_kid (by rw [hop]; simp [GradValOp.kids])) hc
      · next a b hop =>
        exact reset_frame_binary ih hfree
          (Reaches.of_kid (by rw [hop]; simp [GradValOp.kids]))
          (Reaches.of_kid (by rw [hop]; simp [GradValOp.kids])) hc
      · next a b hop =>
        exact reset_frame_binary ih hfree
          (Reaches.of_kid (by rw [hop]; simp [GradValOp.kids]))
          (Reaches.of_kid (by rw [hop]; simp [GradValOp.kids])) hc
      · next a b hop =>
        exact reset_frame_binary ih hfree
          (Reaches.of_kid (by rw [hop]; simp [GradValOp.kids]))
          (Reaches.of_kid (by rw [hop]; simp [GradValOp.kids])) hc

theorem calc_frame_single {f i a : Nat} {g1 : ℝ} {gset : Option ℝ} {h h' : Heap}
    (ih : ∀ (m : Bool) (i : Nat) (g : ℝ) (hh hh' : Heap),
      calcGradAux f m i g hh = .ok hh' → FrameOK i hh hh')
    (hka : Reaches h i a)
    (hc : calcGradAux f true a g1 (setGrad h i gset) = .ok h') : FrameOK i h h' := by
  obtain ⟨iv, io, ifl, ig⟩ := ih _ _ _ _ _ hc
  refine ⟨fun j => by simp [iv], fun j => by simp [io], fun j => by simp [ifl],
    fun j hj => ?_⟩
  have hji : j ≠ i := fun he => hj (he ▸ Reaches.refl h i)
  have hja : ¬ Reaches (setGrad h i gset) a j :=
    fun hr => hj (Reaches.trans hka (reaches_congr (fun j => by simp) hr))
  rw [ig j hja, gradOf_setGrad_ne _ _ _ _ hji]

theorem calc_frame_pair {f i a b : Nat} {g1 g2 : ℝ} {gset : Option ℝ} {h h' : Heap}
    (ih : ∀ (m : Bool) (i : Nat) (g : ℝ) (hh hh' : Heap),
      calcGradAux f m i g hh = .ok hh' → FrameOK i hh hh')
    (hka : Reaches h i a) (hkb : Reaches h i b)
    (hc : (match calcGradAux f true a g1 (setGrad h i gset) with
           | .ok h2 => calcGradAux f true b g2 h2
           | e => e) = .ok h') : FrameOK i h h' := by
  split at hc
  · next h2 hr1 =>
    obtain ⟨iv1, io1, ifl1, ig1⟩ := ih _ _ _ _ _ hr1
    obtain ⟨iv2, io2, ifl2, ig2⟩ := ih _ _ _ _ _ hc
    refine ⟨fun j => by simp [iv2, iv1], fun j => by simp [io2, io1],
      fun j => by simp [ifl2, ifl1], fun j hj => ?_⟩
    have hji : j ≠ i := fun he => hj (he ▸ Reaches.refl h i)
    have hja : ¬ Reaches (setGrad h i gset) a j :=
      fun hr => hj (Reaches.trans hka (reaches_congr (fun j => by simp) hr))
    have hjb : ¬ Reaches h2 b j :=
      fun hr => hj (Reaches.trans hkb
        (reaches_congr (fun j => by simp [io1 j]) hr))
    rw [ig2 j hjb, ig1 j hja, gradOf_setGrad_ne _ _ _ _ hji]
  · next hcontra => exact (hcontra h' hc).elim

set_option maxHeartbeats 1000000 in
theorem calc_frame : ∀ (fuel : Nat) (m : Bool) (i : Nat) (g : ℝ) (h h' : Heap),
    calcGradAux fuel m i g h = .ok h' → FrameOK i h h' := by
  intro fuel
  induction fuel with
  | zero =>
    intro m i g h h' hc
    exact absurd hc (by cases m <;> simp [calcGradAux])
  | succ f ih =>
    intro m i g h h' hc
    cases m with
    | true =>
      rw [calcGradAux] at hc
      split at hc
      · exact absurd hc (by simp)
      · next h1 heq =>
        obtain ⟨hfree, rfl⟩ := borrowMut_ok heq
        split at hc
        · next h2 hr1 =>
          simp only [BRes.ok.injEq] at hc
          subst hc
          obtain ⟨iv, io, ifl, ig⟩ := ih _ _ _ _ _ hr1
          refine ⟨fun j => by simp [iv], fun j => by simp [io], fun j => ?_,
            fun j hj => ?_⟩
          · rw [flagOf_releaseMut]
            split
            · next he => rw [he, hfree]
            · next he => rw [ifl, flagOf_setFlag_ne _ _ _ _ he]
          · have hji : ¬ Reaches (setFlag h i .mutb) i j :=
              fun hr => hj (reaches_congr (fun j => by simp) hr)
            rw [gradOf_releaseMut, ig j hji, gradOf_setFlag]
        · next hcontra => exact (hcontra h' hc).elim
    | false =>
      rw [calcGradAux] at hc
      simp only [opOf_setGrad] at hc
      split at hc
      · next hop =>
        simp only [BRes.ok.injEq] at hc
        subst hc
        refine ⟨fun j => by simp, fun j => by simp, fun j => by simp, fun j hj => ?_⟩
        have hji : j ≠ i := fun he => hj (he ▸ Reaches.refl h i)
        rw [gradOf_setGrad_ne _ _ _ _ hji]
      · next a hop =>
        exact calc_frame_single ih (Reaches.of_kid (by rw [hop]; simp [GradValOp.kids])) hc
      · next a hop =>
        split at hc
        · exact absurd hc (by simp)
        · next av hr =>
          exact calc_frame_single ih
            (Reaches.of_kid (by rw [hop]; simp [GradValOp.kids])) hc
      · next a hop =>
        split at hc
        · exact absurd hc (by simp)
        · next av hr =>
          exact calc_frame_single ih
            (Reaches.of_kid (by rw [hop]; simp [GradValOp.kids])) hc
      · next a b hop =>
        split at hc
        · exact absurd hc (by simp)
        · next av hra =>
          split at hc
          · exact absurd hc (by simp)
          · next bv hrb =>
            exact calc_frame_pair ih
              (Reaches.of_kid (by rw [hop]; simp [GradValOp.kids]))
              (Reaches.of_kid (by rw [hop]; simp [GradValOp.kids])) hc
      · next a b hop =>
        exact calc_frame_pair ih
          (Reaches.of_kid (by rw [hop]; simp [GradValOp.kids]))
          (Reaches.of_kid (by rw [hop]; simp [GradValOp.kids])) hc
      · next a b hop =>
        exact calc_frame_pair ih
          (Reaches.of_kid (by rw [hop]; simp [GradValOp.kids]))
          (Reaches.of_kid (by rw [hop]; simp [GradValOp.kids])) hc
      · next a b hop =>
        split at hc
        · exact absurd hc (by simp)
        · next h2 hba =>
          split at hc
          · exact absurd hc (by simp)
          · next h3 hsb =>
            split at hc
            · next h4 hr1 =>
              split at hc
              · exact absurd hc (by simp)
              · next h6 hbb =>
                split at hc
                · exact absurd hc (by simp)
                · next h7 hsa =>
                  split at hc
                  · next h8 hr2 =>
                    simp only [BRes.ok.injEq] at hc
                    subst hc
                    obtain ⟨hfa, rfl⟩ := borrowMut_ok hba
                    obtain ⟨fb, hincb, rfl⟩ := borrowShared_ok hsb
                    have hab : b ≠ a := by
                      intro he
                      rw [he, flagOf_setFlag_same] at hincb
                      simp [sharedInc] at hincb
                    rw [flagOf_setFlag_ne _ _ _ _ hab, flagOf_setGrad] at hincb
                    obtain ⟨iv1, io1, ifl1, ig1⟩ := ih _ _ _ _ _ hr1
                    obtain ⟨hfb5, rfl⟩ := borrowMut_ok hbb
                    obtain ⟨fa2, hinca, rfl⟩ := borrowShared_ok hsa
                    rw [flagOf_setFlag_ne _ _ _ _ (Ne.symm hab), flagOf_releaseMut,
                      if_pos rfl] at hinca
                    have hfa2 : fa2 = .shared 0 := by
                      simp [sharedInc] at hinca
                      exact hinca.symm
                    subst hfa2
                    obtain ⟨iv2, io2, ifl2, ig2⟩ := ih _ _ _ _ _ hr2
                    have hFa : flagOf h a = .free := by
                      rw [flagOf_setGrad] at hfa
                      exact hfa
                    have hFb : flagOf h b = .free := by
                      have e1 : flagOf (releaseMut (releaseShared h4 b) a) b
                          = flagOf h b := by
                        rw [flagOf_releaseMut, if_neg hab, flagOf_releaseShared,
                          if_pos rfl, ifl1, flagOf_setFlag_same,
                          sharedDec_sharedInc hincb]
                      exact e1.symm.trans hfb5
                    have hka : Reaches h i a :=
                      Reaches.of_kid (by rw [hop]; simp [GradValOp.kids])
                    have hkb : Reaches h i b :=
                      Reaches.of_kid (by rw [hop]; simp [GradValOp.kids])
                    refine ⟨fun j => by simp [iv2, iv1], fun j => by simp [io2, io1],
                      fun j => ?_, fun j hj => ?_⟩
                    · by_cases hjb : j = b
                      · subst hjb
                        rw [flagOf_releaseMut, if_pos rfl, hFb]
                      · by_cases hja : j = a
                        · subst hja
                          rw [flagOf_releaseMut, if_neg (Ne.symm hab),
                            flagOf_releaseShared, if_pos rfl, ifl2,
                            flagOf_setFlag_same]
                          simp [sharedDec, hFa]
                        · rw [flagOf_releaseMut, if_neg hjb, flagOf_releaseShared,
                            if_neg hja, ifl2, flagOf_setFlag_ne _ _ _ _ hja,
                            flagOf_setFlag_ne _ _ _ _ hjb, flagOf_releaseMut,
                            if_neg hja, flagOf_releaseShared, if_neg hjb, ifl1,
                            flagOf_setFlag_ne _ _ _ _ hjb,
                            flagOf_setFlag_ne _ _ _ _ hja, flagOf_setGrad]
                    · have hji : j ≠ i := fun he => hj (he ▸ Reaches.refl h i)
                      have hja3 : ¬ Reaches (setFlag (setFlag
                          (setGrad h i (some ((gradOf h i).getD 0 + g)))
                          a .mutb) b fb) a j :=
                        fun hr => hj (Reaches.trans hka
                          (reaches_congr (fun j => by simp) hr))
                      have hjb7 : ¬ Reaches (setFlag (setFlag
                          (releaseMut (releaseShared h4 b) a) b .mutb)
                          a (.shared 0)) b j :=
                        fun hr => hj (Reaches.trans hkb
                          (reaches_congr (fun j => by simp [io1 j]) hr))
                      rw [gradOf_releaseMut, gradOf_releaseShared, ig2 j hjb7]
                      simp only [gradOf_setFlag]
                      rw [gradOf_releaseMut, gradOf_releaseShared, ig1 j hja3]
                      simp only [gradOf_setFlag]
                      rw [gradOf_setGrad_ne _ _ _ _ hji]
                  · next hcontra => exact (hcontra h' hc).elim
            · next hcontra => exact (hcontra h' hc).elim
      · next a b hop =>
        split at hc
        · exact absurd hc (by simp)
        · next av hra =>
          split at hc
          · exact absurd hc (by simp)
          · next bv hrb =>
            exact calc_frame_pair ih
              (Reaches.of_kid (by rw [hop]; simp [GradValOp.kids]))
              (Reaches.of_kid (by rw [hop]; simp [GradValOp.kids])) hc

theorem isSome_setGrad {h : Heap} {i : Nat} {v : ℝ} {j : Nat}
    (hs : (gradOf h j).isSome) : (gradOf (setGrad h i (some v)) j).isSome := by
  rw [gradOf_setGrad]
  split <;> simp_all

theorem kid_single {op : GradValOp} {a c : Nat} (he : op.kids = [a])
    (hc : c ∈ op.kids) : c = a := by
  rw [he] at hc
  simpa using hc

theorem kid_pair {op : GradValOp} {a b c : Nat} (he : op.kids = [a, b])
    (hc : c ∈ op.kids) : c = a ∨ c = b := by
  rw [he] at hc
  simpa using hc

theorem calc_grads_single {f i a : Nat} {p : ℝ} {s : ℝ} {h h' : Heap}
    (ih : ∀ (m : Bool) (i : Nat) (g : ℝ) (hh hh' : Heap),
      calcGradAux f m i g hh = .ok hh' →
      (∀ j, (gradOf hh j).isSome → (gradOf hh' j).isSome) ∧
      (∀ j, Reaches hh i j → (gradOf hh' j).isSome))
    (hkids : (opOf h i).kids = [a])
    (hc : calcGradAux f true a p (setGrad h i (some s)) = .ok h') :
    (∀ j, (gradOf h j).isSome → (gradOf h' j).isSome) ∧
    (∀ j, Reaches h i j → (gradOf h' j).isSome) := by
  obtain ⟨m1, v1⟩ := ih _ _ _ _ _ hc
  constructor
  · intro j hs
    exact m1 j (isSome_setGrad hs)
  · intro j hr
    rcases reaches_cases_head hr with he | ⟨c, hck, hcr⟩
    · subst he
      exact m1 _ (by simp)
    · have hca : c = a := kid_single hkids hck
      subst hca
      exact v1 _ (reaches_congr (fun j => by simp) hcr)

theorem calc_grads_pair {f i a b : Nat} {p q : ℝ} {s : ℝ} {h h' : Heap}
    (ih : ∀ (m : Bool) (i : Nat) (g : ℝ) (hh hh' : Heap),
      calcGradAux f m i g hh = .ok hh' →
      (∀ j, (gradOf hh j).isSome → (gradOf hh' j).isSome) ∧
      (∀ j, Reaches hh i j → (gradOf hh' j).isSome))
    (hkids : (opOf h i).kids = [a, b])
    (hc : (match calcGradAux f true a p (setGrad h i (some s)) with
           | .ok h2 => calcGradAux f true b q h2
           | e => e) = .ok h') :
    (∀ j, (gradOf h j).isSome → (gradOf h' j).isSome) ∧
    (∀ j, Reaches h i j → (gradOf h' j).isSome) := by
  split at hc
  · next h2 hr1 =>
    obtain ⟨m1, v1⟩ := ih _ _ _ _ _ hr1
    obtain ⟨m2, v2⟩ := ih _ _ _ _ _ hc
    obtain ⟨_, io1, _, _⟩ := calc_frame _ _ _ _ _ _ hr1
    constructor
    · intro j hs
      exact m2 j (m1 j (isSome_setGrad hs))
    · intro j hr
      rcases reaches_cases_head hr with he | ⟨c, hck, hcr⟩
      · subst he
        exact m2 _ (m1 _ (by simp))
      · rcases kid_pair hkids hck with hca | hcb
        · subst hca
          exact m2 _ (v1 _ (reaches_congr (fun j => by simp) hcr))
        · subst hcb
          refine v2 _ (reaches_congr (fun j => ?_) hcr)
          rw [io1 j]
          simp
  · next hcontra => exact (hcontra h' hc).elim

set_option maxHeartbeats 1000000 in
theorem calc_grads : ∀ (fuel : Nat) (m : Bool) (i : Nat) (g : ℝ) (h h' : Heap),
    calcGradAux fuel m i g h = .ok h' →
    (∀ j, (gradOf h j).isSome → (gradOf h' j).isSome) ∧
    (∀ j, Reaches h i j → (gradOf h' j).isSome) := by
  intro fuel
  induction fuel with
  | zero =>
    intro m i g h h' hc
    exact absurd hc (by cases m <;> simp [calcGradAux])
  | succ f ih =>
    intro m i g h h' hc
    cases m with
    | true =>
      rw [calcGradAux] at hc
      split at hc
      · exact absurd hc (by simp)
      · next h1 heq =>
        obtain ⟨hfree, rfl⟩ := borrowMut_ok heq
        split at hc
        · next h2 hr1 =>
          simp only [BRes.ok.injEq] at hc
          subst hc
          obtain ⟨m1, v1⟩ := ih _ _ _ _ _ hr1
          constructor
          · intro j hs
            rw [gradOf_releaseMut]
            exact m1 j (by rw [gradOf_setFlag]; exact hs)
          · intro j hr
            rw [gradOf_releaseMut]
            exact v1 j (reaches_congr (fun j => by simp) hr)
        · next hcontra => exact (hcontra h' hc).elim
    | false =>
      rw [calcGradAux] at hc
      simp only [opOf_setGrad] at hc
      split at hc
      · next hop =>
        simp only [BRes.ok.injEq] at hc
        subst hc
        constructor
        · intro j hs
          exact isSome_setGrad hs
        · intro j hr
          rcases reaches_cases_head hr with he | ⟨c, hck, hcr⟩
          · subst he
            simp
          · rw [hop] at hck
            simp [GradValOp.kids] at hck
      · next a hop =>
        exact calc_grads_single ih (by rw [hop]; rfl) hc
      · next a hop =>
        split at hc
        · exact absurd hc (by simp)
        · next av hr => exact calc_grads_single ih (by rw [hop]; rfl) hc
      · next a hop =>
        split at hc
        · exact absurd hc (by simp)
        · next av hr => exact calc_grads_single ih (by rw [hop]; rfl) hc
      · next a b hop =>
        split at hc
        · exact absurd hc (by simp)
        · next av hra =>
          split at hc
          · exact absurd hc (by simp)
          · next bv hrb => exact calc_grads_pair ih (by rw [hop]; rfl) hc
      · next a b hop =>
        exact calc_grads_pair ih (by rw [hop]; rfl) hc
      · next a b hop =>
        exact calc_grads_pair ih (by rw [hop]; rfl) hc
      · next a b hop =>
        split at hc
        · exact absurd hc (by simp)
        · next h2 hba =>
          split at hc
          · exact absurd hc (by simp)
          · next h3 hsb =>
            split at hc
            · next h4 hr1 =>
              split at hc
              · exact absurd hc (by simp)
              · next h6 hbb =>
                split at hc
                · exact absurd hc (by simp)
                · next h7 hsa =>
                  split at hc
                  · next h8 hr2 =>
                    simp only [BRes.ok.injEq] at hc
                    subst hc
                    obtain ⟨hfa, rfl⟩ := borrowMut_ok hba
                    obtain ⟨fb, hincb, rfl⟩ := borrowShared_ok hsb
                    obtain ⟨m1, v1⟩ := ih _ _ _ _ _ hr1
                    obtain ⟨_, io1, _, _⟩ := calc_frame _ _ _ _ _ _ hr1
                    obtain ⟨hfb5, rfl⟩ := borrowMut_ok hbb
                    obtain ⟨fa2, hinca, rfl⟩ := borrowShared_ok hsa
                    obtain ⟨m2, v2⟩ := ih _ _ _ _ _ hr2
                    constructor
                    · intro j hs
                      rw [gradOf_releaseMut, gradOf_releaseShared]
                      refine m2 j ?_
                      simp only [gradOf_setFlag, gradOf_releaseMut,
                        gradOf_releaseShared]
                      refine m1 j ?_
                      simp only [gradOf_setFlag]
                      exact isSome_setGrad hs
                    · intro j hr
                      rw [gradOf_releaseMut, gradOf_releaseShared]
                      rcases reaches_cases_head hr with he | ⟨c, hck, hcr⟩
                      · subst he
                        refine m2 _ ?_
                        simp only [gradOf_setFlag, gradOf_releaseMut,
                          gradOf_releaseShared]
                        exact m1 _ (by simp)
                      · rcases kid_pair (by rw [hop]; rfl) hck with hca | hcb
                        · subst hca
                          refine m2 _ ?_
                          simp only [gradOf_setFlag, gradOf_releaseMut,
                            gradOf_releaseShared]
                          exact v1 _ (reaches_congr (fun j => by simp) hcr)
                        · subst hcb
                          refine v2 _ (reaches_congr (fun j => ?_) hcr)
                          simp only [opOf_setFlag, opOf_releaseMut,
                            opOf_releaseShared]
                          rw [io1 j]
                          simp
                  · next hcontra => exact (hcontra h' hc).elim
            · next hcontra => exact (hcontra h' hc).elim
      · next a b hop =>
        split at hc
        · exact absurd hc (by simp)
        · next av hra =>
          split at hc
          · exact absurd hc (by simp)
          · next bv hrb => exact calc_grads_pair ih (by rw [hop]; rfl) hc

theorem GradAgree.weaken {D : Nat → Prop} {h k : Heap} (hg : GradAgree D h k)
    (D' : Nat → Prop) (himp : ∀ j, D j → D' j) : GradAgree D' h k :=
  fun j hj => hg j (fun hd => hj (himp j hd))

theorem SideAgree.flag_eq {h k : Heap} (hs : SideAgree h k) (j : Nat) :
    flagOf h j = flagOf k j := hs.2.2 j

theorem SideAgree.prepMut {h k : Heap} (hs : SideAgree h k) (i : Nat)
    (fl : BorrowFlag) (g : Option ℝ) :
    SideAgree (setGrad (setFlag h i fl) i g) (setGrad (setFlag k i fl) i g) := by
  refine ⟨fun j => by simp [hs.1 j], fun j => by simp [hs.2.1 j], fun j => ?_⟩
  simp only [flagOf_setGrad]
  rw [flagOf_setFlag, flagOf_setFlag]
  split
  · rfl
  · exact hs.2.2 j

theorem GradAgree.prepEnter {D : Nat → Prop} {h k : Heap} (hg : GradAgree D h k)
    (i : Nat) (fl fl' : BorrowFlag) (g : Option ℝ) :
    GradAgree (fun j => D j ∧ j ≠ i)
      (setGrad (setFlag h i fl) i g) (setGrad (setFlag k i fl') i g) := by
  intro j hj
  rw [gradOf_setGrad, gradOf_setGrad]
  simp only [gradOf_setFlag]
  split
  · rfl
  · next hji => exact hg j (fun hd => hj ⟨hd, hji⟩)

theorem reset_sim_unary {f i a : Nat} {h k h' : Heap} {D : Nat → Prop}
    (ih : ∀ (i : Nat) (hh kk hh' : Heap) (D : Nat → Prop), SideAgree hh kk →
      GradAgree D hh kk → resetGradRecursively f i hh = .ok hh' →
      ∃ kk', resetGradRecursively f i kk = .ok kk' ∧ SideAgree hh' kk' ∧
        GradAgree (fun j => D j ∧ ¬ Reaches hh i j) hh' kk')
    (hs : SideAgree h k) (hg : GradAgree D h k)
    (hkids : (opOf h i).kids = [a])
    (hc : (match resetGradRecursively f a (setGrad (setFlag h i .mutb) i none) with
           | .ok h3 => BRes.ok (releaseMut h3 i)
           | e => e) = .ok h') :
    ∃ k', (match resetGradRecursively f a (setGrad (setFlag k i .mutb) i none) with
           | .ok h3 => BRes.ok (releaseMut h3 i)
           | e => e) = .ok k' ∧ SideAgree h' k' ∧
      GradAgree (fun j => D j ∧ ¬ Reaches h i j) h' k' := by
  split at hc
  · next h3 hr1 =>
    simp only [BRes.ok.injEq] at hc
    subst hc
    obtain ⟨k3, hrk, hs3, hg3⟩ :=
      ih a _ _ _ (fun j => D j ∧ j ≠ i) (hs.prepMut i .mutb none)
        (hg.prepEnter i .mutb .mutb none) hr1
    refine ⟨releaseMut k3 i, by simp only [hrk], ?_, ?_⟩
    · refine ⟨fun j => by simp [hs3.1 j], fun j => by simp [hs3.2.1 j], fun j => ?_⟩
      rw [flagOf_releaseMut, flagOf_releaseMut]
      split
      · rfl
      · exact hs3.2.2 j
    · have hgr : GradAgree
          (fun j => (D j ∧ j ≠ i) ∧
            ¬ Reaches (setGrad (setFlag h i BorrowFlag.mutb) i none) a j)
          (releaseMut h3 i) (releaseMut k3 i) := by
        intro j hj
        simp only [gradOf_releaseMut]
        exact hg3 j hj
      refine hgr.weaken _ (fun j hj => ?_)
      obtain ⟨⟨hD, hji⟩, hna⟩ := hj
      refine ⟨hD, fun hr => ?_⟩
      rcases reaches_cases_head hr with he | ⟨c, hck, hcr⟩
      · exact hji he.symm
      · have hca : c = a := kid_single hkids hck
        subst hca
        exact hna (reaches_congr (fun j => by simp) hcr)
  · next hcontra => exact (hcontra h' hc).elim

theorem reset_sim_binary {f i a b : Nat} {h k h' : Heap} {D : Nat → Prop}
    (ih : ∀ (i : Nat) (hh kk hh' : Heap) (D : Nat → Prop), SideAgree hh kk →
      GradAgree D hh kk → resetGradRecursively f i hh = .ok hh' →
      ∃ kk', resetGradRecursively f i kk = .ok kk' ∧ SideAgree hh' kk' ∧
        GradAgree (fun j => D j ∧ ¬ Reaches hh i j) hh' kk')
    (hs : SideAgree h k) (hg : GradAgree D h k)
    (hkids : (opOf h i).kids = [a, b])
    (hc : (match resetGradRecursively f a (setGrad (setFlag h i .mutb) i none) with
           | .ok h3 =>
             match resetGradRecursively f b h3 with
             | .ok h4 => BRes.ok (releaseMut h4 i)
             | e => e
           | e => e) = .ok h') :
    ∃ k', (match resetGradRecursively f a (setGrad (setFlag k i .mutb) i none) with
           | .ok h3 =>
             match resetGradRecursively f b h3 with
             | .ok h4 => BRes.ok (releaseMut h4 i)
             | e => e
           | e => e) = .ok k' ∧ SideAgree h' k' ∧
      GradAgree (fun j => D j ∧ ¬ Reaches h i j) h' k' := by
  split at hc
  · next h3 hr1 =>
    split at hc
    · next h4 hr2 =>
      simp only [BRes.ok.injEq] at hc
      subst hc
      obtain ⟨io3, _⟩ := (reset_frame _ _ _ _ hr1).2
      obtain ⟨k3, hrk1, hs3, hg3⟩ :=
        ih a _ _ _ (fun j => D j ∧ j ≠ i) (hs.prepMut i .mutb none)
          (hg.prepEnter i .mutb .mutb none) hr1
      obtain ⟨k4, hrk2, hs4, hg4⟩ := ih b _ _ _ _ hs3 hg3 hr2
      refine ⟨releaseMut k4 i, by simp only [hrk1, hrk2], ?_, ?_⟩
      · refine ⟨fun j => by simp [hs4.1 j], fun j => by simp [hs4.2.1 j], fun j => ?_⟩
        rw [flagOf_releaseMut, flagOf_releaseMut]
        split
        · rfl
        · exact hs4.2.2 j
      · have hgr : GradAgree
            (fun j => ((D j ∧ j ≠ i) ∧
              ¬ Reaches (setGrad (setFlag h i BorrowFlag.mutb) i none) a j) ∧
              ¬ Reaches h3 b j)
            (releaseMut h4 i) (releaseMut k4 i) := by
          intro j hj
          simp only [gradOf_releaseMut]
          exact hg4 j hj
        refine hgr.weaken _ (fun j hj => ?_)
        obtain ⟨⟨⟨hD, hji⟩, hna⟩, hnb⟩ := hj
        refine ⟨hD, fun hr => ?_⟩
        rcases reaches_cases_head hr with he | ⟨c, hck, hcr⟩
        · exact hji he.symm
        · rcases kid_pair hkids hck with hca | hcb
          · subst hca
            exact hna (reaches_congr (fun j => by simp) hcr)
          · subst hcb
            refine hnb (reaches_congr (fun j => ?_) hcr)
            rw [io3 j]
            simp
    · next hcontra => exact (hcontra h' hc).elim
  · next hcontra => exact (hcontra h' hc).elim

set_option maxHeartbeats 1000000 in
theorem reset_sim : ∀ (fuel i : Nat) (h k h' : Heap) (D : Nat → Prop),
    SideAgree h k → GradAgree D h k →
    resetGradRecursively fuel i h = .ok h' →
    ∃ k', resetGradRecursively fuel i k = .ok k' ∧ SideAgree h' k' ∧
      GradAgree (fun j => D j ∧ ¬ Reaches h i j) h' k' := by
  intro fuel
  induction fuel with
  | zero =>
    intro i h k h' D hs hg hc
    exact absurd hc (by simp [resetGradRecursively])
  | succ f ih =>
    intro i h k h' D hs hg hc
    rw [resetGradRecursively] at hc
    split at hc
    · exact absurd hc (by simp)
    · next h1 heq =>
      obtain ⟨hfree, rfl⟩ := borrowMut_ok heq
      have hfk : flagOf k i = .free := (hs.2.2 i).symm.trans hfree
      have hbk : borrowMut k i = some (setFlag k i .mutb) := by
        unfold borrowMut
        rw [hfk]
      simp only [opOf_setGrad, opOf_setFlag] at hc
      split at hc
      · next hop =>
        have hok : opOf k i = .Noop := (hs.2.1 i).symm.trans hop
        simp only [BRes.ok.injEq] at hc
        subst hc
        refine ⟨releaseMut (setGrad (setFlag k i .mutb) i none) i, ?_, ?_, ?_⟩
        · rw [resetGradRecursively]
          simp only [hbk, opOf_setGrad, opOf_setFlag, hok]
        · refine ⟨fun j => by simp [hs.1 j], fun j => by simp [hs.2.1 j], fun j => ?_⟩
          rw [flagOf_releaseMut, flagOf_releaseMut]
          split
          · rfl
          · next hji =>
            simp only [flagOf_setGrad]
            rw [flagOf_setFlag_ne _ _ _ _ hji, flagOf_setFlag_ne _ _ _ _ hji]
            exact hs.2.2 j
        · intro j hj
          by_cases hji : j = i
          · subst hji
            simp
          · simp only [gradOf_releaseMut]
            rw [gradOf_setGrad_ne _ _ _ _ hji, gradOf_setGrad_ne _ _ _ _ hji]
            simp only [gradOf_setFlag]
            refine hg j (fun hD => hj ⟨hD, fun hr => ?_⟩)
            rcases reaches_cases_head hr with he | ⟨c, hck, hcr⟩
            · exact hji he.symm
            · rw [hop] at hck
              simp [GradValOp.kids] at hck
      · next a hop =>
        have hok : opOf k i = .Neg a := (hs.2.1 i).symm.trans hop
        obtain ⟨k', hm, hside, hgrad⟩ := reset_sim_unary ih hs hg (by rw [hop]; rfl) hc
        refine ⟨k', ?_, hside, hgrad⟩
        rw [resetGradRecursively]
        simp only [hbk, opOf_setGrad, opOf_setFlag, hok]
        exact hm
      · next a hop =>
        have hok : opOf k i = .Exp a := (hs.2.1 i).symm.trans hop
        obtain ⟨k', hm, hside, hgrad⟩ := reset_sim_unary ih hs hg (by rw [hop]; rfl) hc
        refine ⟨k', ?_, hside, hgrad⟩
        rw [resetGradRecursively]
        simp only [hbk, opOf_setGrad, opOf_setFlag, hok]
        exact hm
      · next a hop =>
        have hok : opOf k i = .Log a := (hs.2.1 i).symm.trans hop
        obtain ⟨k', hm, hside, hgrad⟩ := reset_sim_unary ih hs hg (by rw [hop]; rfl) hc
        refine ⟨k', ?_, hside, hgrad⟩
        rw [resetGradRecursively]
        simp only [hbk, opOf_setGrad, opOf_setFlag, hok]
        exact hm
      · next a b hop =>
        have hok : opOf k i = .Pow a b := (hs.2.1 i).symm.trans hop
        obtain ⟨k', hm, hside, hgrad⟩ := reset_sim_binary ih hs hg (by rw [hop]; rfl) hc
        refine ⟨k', ?_, hside, hgrad⟩
        rw [resetGradRecursively]
        simp only [hbk, opOf_setGrad, opOf_setFlag, hok]
        exact hm
      · next a b hop =>
        have hok : opOf k i = .Add a b := (hs.2.1 i).symm.trans hop
        obtain ⟨k', hm, hside, hgrad⟩ := reset_sim_binary ih hs hg (by rw [hop]; rfl) hc
        refine ⟨k', ?_, hside, hgrad⟩
        rw [resetGradRecursively]
        simp only [hbk, opOf_setGrad, opOf_setFlag, hok]
        exact hm
      · next a b hop =>
        have hok : opOf k i = .Sub a b := (hs.2.1 i).symm.trans hop
        obtain ⟨k', hm, hside, hgrad⟩ := reset_sim_binary ih hs hg (by rw [hop]; rfl) hc
        refine ⟨k', ?_, hside, hgrad⟩
        rw [resetGradRecursively]
        simp only [hbk, opOf_setGrad, opOf_setFlag, hok]
        exact hm
      · next a b hop =>
        have hok : opOf k i = .Mul a b := (hs.2.1 i).symm.trans hop
        obtain ⟨k', hm, hside, hgrad⟩ := reset_sim_binary ih hs hg (by rw [hop]; rfl) hc
        refine ⟨k', ?_, hside, hgrad⟩
        rw [resetGradRecursively]
        simp only [hbk, opOf_setGrad, opOf_setFlag, hok]
        exact hm
      · next a b hop =>
        have hok : opOf k i = .Div a b := (hs.2.1 i).symm.trans hop
        obtain ⟨k', hm, hside, hgrad⟩ := reset_sim_binary ih hs hg (by rw [hop]; rfl) hc
        refine ⟨k', ?_, hside, hgrad⟩
        rw [resetGradRecursively]
        simp only [hbk, opOf_setGrad, opOf_setFlag, hok]
        exact hm

theorem SideAgree.setGradBoth {h k : Heap} (hs : SideAgree h k) (i : Nat)
    (v : Option ℝ) : SideAgree (setGrad h i v) (setGrad k i v) :=
  ⟨fun j => by simp [hs.1 j], fun j => by simp [hs.2.1 j],
    fun j => by simp only [flagOf_setGrad]; exact hs.2.2 j⟩

theorem SideAgree.setFlagBoth {h k : Heap} (hs : SideAgree h k) (i : Nat)
    (fl : BorrowFlag) : SideAgree (setFlag h i fl) (setFlag k i fl) := by
  refine ⟨fun j => by simp [hs.1 j], fun j => by simp [hs.2.1 j], fun j => ?_⟩
  rw [flagOf_setFlag, flagOf_setFlag]
  split
  · rfl
  · exact hs.2.2 j

theorem SideAgree.releaseMutBoth {h k : Heap} (hs : SideAgree h k) (i : Nat) :
    SideAgree (releaseMut h i) (releaseMut k i) :=
  hs.setFlagBoth i .free

theorem SideAgree.releaseSharedBoth {h k : Heap} (hs : SideAgree h k) (i : Nat) :
    SideAgree (releaseShared h i) (releaseShared k i) := by
  unfold releaseShared
  rw [hs.2.2 i]
  exact hs.setFlagBoth i _

theorem GradAgree.setGradSame {D : Nat → Prop} {h k : Heap}
    (hg : GradAgree D h k) (i : Nat) (v : Option ℝ) :
    GradAgree D (setGrad h i v) (setGrad k i v) := by
  intro j hj
  rw [gradOf_setGrad, gradOf_setGrad]
  split
  · rfl
  · exact hg j hj

theorem GradAgree.setFlagKeep {D : Nat → Prop} {h k : Heap}
    (hg : GradAgree D h k) (i i' : Nat) (fl fl' : BorrowFlag) :
    GradAgree D (setFlag h i fl) (setFlag k i' fl') := by
  intro j hj
  simp only [gradOf_setFlag]
  exact hg j hj

theorem GradAgree.releaseMutKeep {D : Nat → Prop} {h k : Heap}
    (hg : GradAgree D h k) (i i' : Nat) :
    GradAgree D (releaseMut h i) (releaseMut k i') := by
  intro j hj
  simp only [gradOf_releaseMut]
  exact hg j hj

theorem GradAgree.releaseSharedKeep {D : Nat → Prop} {h k : Heap}
    (hg : GradAgree D h k) (i i' : Nat) :
    GradAgree D (releaseShared h i) (releaseShared k i') := by
  intro j hj
  simp only [gradOf_releaseShared]
  exact hg j hj

theorem readVal_agree {h k : Heap} (hs : SideAgree h k) {i : Nat} {v : ℝ}
    (hr : readVal h i = some v) : readVal k i = some v := by
  unfold readVal at hr ⊢
  rw [← hs.2.2 i, ← hs.1 i]
  exact hr

theorem dis_step {h hcur : Heap} {D : Nat → Prop} {i c : Nat}
    (hdis : ∀ j, D j → ¬ Reaches h i j) (hkc : c ∈ (opOf h i).kids)
    (hop : ∀ j, opOf h j = opOf hcur j) :
    ∀ j, D j → ¬ Reaches hcur c j :=
  fun j hD hr => hdis j hD (Reaches.trans (Reaches.of_kid hkc)
    (reaches_congr (fun j => (hop j).symm) hr))

theorem calc_sim_single {f i a : Nat} {p v : ℝ} {h k h' : Heap} {D : Nat → Prop}
    (ih : ∀ (m : Bool) (i : Nat) (g : ℝ) (hh kk hh' : Heap) (D : Nat → Prop),
      SideAgree hh kk → GradAgree D hh kk → (∀ j, D j → ¬ Reaches hh i j) →
      calcGradAux f m i g hh = .ok hh' →
      ∃ kk', calcGradAux f m i g kk = .ok kk' ∧ SideAgree hh' kk' ∧
        GradAgree D hh' kk')
    (hs : SideAgree h k) (hg : GradAgree D h k)
    (hdis : ∀ j, D j → ¬ Reaches h i j)
    (hkids : (opOf h i).kids = [a])
    (hc : calcGradAux f true a p (setGrad h i (some v)) = .ok h') :
    ∃ k', calcGradAux f true a p (setGrad k i (some v)) = .ok k' ∧
      SideAgree h' k' ∧ GradAgree D h' k' := by
  refine ih true a p _ _ h' D (hs.setGradBoth i (some v))
    (hg.setGradSame i (some v)) ?_ hc
  refine dis_step hdis ?_ (fun j => by simp)
  rw [hkids]
  simp

theorem calc_sim_pair {f i a b : Nat} {p q v : ℝ} {h k h' : Heap} {D : Nat → Prop}
    (ih : ∀ (m : Bool) (i : Nat) (g : ℝ) (hh kk hh' : Heap) (D : Nat → Prop),
      SideAgree hh kk → GradAgree D hh kk → (∀ j, D j → ¬ Reaches hh i j) →
      calcGradAux f m i g hh = .ok hh' →
      ∃ kk', calcGradAux f m i g kk = .ok kk' ∧ SideAgree hh' kk' ∧
        GradAgree D hh' kk')
    (hs : SideAgree h k) (hg : GradAgree D h k)
    (hdis : ∀ j, D j → ¬ Reaches h i j)
    (hkids : (opOf h i).kids = [a, b])
    (hc : (match calcGradAux f true a p (setGrad h i (some v)) with
           | .ok h2 => calcGradAux f true b q h2
           | e => e) = .ok h') :
    ∃ k', (match calcGradAux f true a p (setGrad k i (some v)) with
           | .ok h2 => calcGradAux f true b q h2
           | e => e) = .ok k' ∧ SideAgree h' k' ∧ GradAgree D h' k' := by
  split at hc
  · next h2 hr1 =>
    obtain ⟨k2, hrk1, hs2, hg2⟩ :=
      ih true a p _ _ h2 D (hs.setGradBoth i (some v))
        (hg.setGradSame i (some v))
        (dis_step hdis (by rw [hkids]; simp) (fun j => by simp)) hr1
    obtain ⟨io2, _⟩ := (calc_frame _ _ _ _ _ _ hr1).2
    have hop2 : ∀ j, opOf h j = opOf h2 j := fun j => by
      rw [io2 j]
      simp
    obtain ⟨k', hrk2, hs', hg'⟩ :=
      ih true b q _ _ h' D hs2 hg2
        (dis_step hdis (by rw [hkids]; simp) hop2) hc
    refine ⟨k', ?_, hs', hg'⟩
    simp only [hrk1]
    exact hrk2
  · next hcontra => exact (hcontra h' hc).elim

set_option maxHeartbeats 2000000 in
theorem calc_sim : ∀ (fuel : Nat) (m : Bool) (i : Nat) (g : ℝ) (h k h' : Heap)
    (D : Nat → Prop),
    SideAgree h k → GradAgree D h k → (∀ j, D j → ¬ Reaches h i j) →
    calcGradAux fuel m i g h = .ok h' →
    ∃ k', calcGradAux fuel m i g k = .ok k' ∧ SideAgree h' k' ∧
      GradAgree D h' k' := by
  intro fuel
  induction fuel with
  | zero =>
    intro m i g h k h' D hs hg hdis hc
    exact absurd hc (by cases m <;> simp [calcGradAux])
  | succ f ih =>
    intro m i g h k h' D hs hg hdis hc
    cases m with
    | true =>
      rw [calcGradAux] at hc
      split at hc
      · exact absurd hc (by simp)
      · next h1 heq =>
        obtain ⟨hfree, rfl⟩ := borrowMut_ok heq
        have hfk : flagOf k i = .free := (hs.2.2 i).symm.trans hfree
        have hbk : borrowMut k i = some (setFlag k i .mutb) := by
          unfold borrowMut
          rw [hfk]
        split at hc
        · next h2 hr1 =>
          simp only [BRes.ok.injEq] at hc
          subst hc
          obtain ⟨k2, hrk, hs2, hg2⟩ :=
            ih false i g _ _ h2 D (hs.setFlagBoth i .mutb)
              (fun j hj => by simp only [gradOf_setFlag]; exact hg j hj)
              (fun j hD hr => hdis j hD (reaches_congr (fun j => by simp) hr)) hr1
          refine ⟨releaseMut k2 i, ?_, hs2.releaseMutBoth i, fun j hj => ?_⟩
          · rw [calcGradAux]
            simp only [hbk, hrk]
          · simp only [gradOf_releaseMut]
            exact hg2 j hj
        · next hcontra => exact (hcontra h' hc).elim
    | false =>
      have hDi : ¬ D i := fun hD => hdis i hD (Reaches.refl h i)
      have hgi : gradOf k i = gradOf h i := (hg i hDi).symm
      rw [calcGradAux] at hc
      simp only [opOf_setGrad] at hc
      split at hc
      · next hop =>
        have hok : opOf k i = .Noop := (hs.2.1 i).symm.trans hop
        simp only [BRes.ok.injEq] at hc
        subst hc
        refine ⟨setGrad k i (some ((gradOf h i).getD 0 + g)), ?_, ?_, ?_⟩
        · rw [calcGradAux]
          simp only [hgi, opOf_setGrad, hok]
        · exact hs.setGradBoth i _
        · exact hg.setGradSame i _
      · next a hop =>
        have hok : opOf k i = .Neg a := (hs.2.1 i).symm.trans hop
        obtain ⟨k', hrk, hs', hg'⟩ :=
          calc_sim_single ih hs hg hdis (by rw [hop]; rfl) hc
        refine ⟨k', ?_, hs', hg'⟩
        rw [calcGradAux]
        simp only [hgi, opOf_setGrad, hok]
        exact hrk
      · next a hop =>
        have hok : opOf k i = .Exp a := (hs.2.1 i).symm.trans hop
        split at hc
        · exact absurd hc (by simp)
        · next av hrv =>
          have hrvk := readVal_agree (hs.setGradBoth i _) hrv
          obtain ⟨k', hrk, hs', hg'⟩ :=
            calc_sim_single ih hs hg hdis (by rw [hop]; rfl) hc
          refine ⟨k', ?_, hs', hg'⟩
          rw [calcGradAux]
          simp only [hgi, opOf_setGrad, hok, hrvk]
          exact hrk
      · next a hop =>
        have hok : opOf k i = .Log a := (hs.2.1 i).symm.trans hop
        split at hc
        · exact absurd hc (by simp)
        · next av hrv =>
          have hrvk := readVal_agree (hs.setGradBoth i _) hrv
          obtain ⟨k', hrk, hs', hg'⟩ :=
            calc_sim_single ih hs hg hdis (by rw [hop]; rfl) hc
          refine ⟨k', ?_, hs', hg'⟩
          rw [calcGradAux]
          simp only [hgi, opOf_setGrad, hok, hrvk]
          exact hrk
      · next a b hop =>
        have hok : opOf k i = .Pow a b := (hs.2.1 i).symm.trans hop
        split at hc
        · exact absurd hc (by simp)
        · next av hrva =>
          split at hc
          · exact absurd hc (by simp)
          · next bv hrvb =>
            have hrvka := readVal_agree (hs.setGradBoth i _) hrva
            have hrvkb := readVal_agree (hs.setGradBoth i _) hrvb
            obtain ⟨k', hrk, hs', hg'⟩ :=
              calc_sim_pair ih hs hg hdis (by rw [hop]; rfl) hc
            refine ⟨k', ?_, hs', hg'⟩
            rw [calcGradAux]
            simp only [hgi, opOf_setGrad, hok, hrvka, hrvkb]
            exact hrk
      · next a b hop =>
        have hok : opOf k i = .Add a b := (hs.2.1 i).symm.trans hop
        obtain ⟨k', hrk, hs', hg'⟩ :=
          calc_sim_pair ih hs hg hdis (by rw [hop]; rfl) hc
        refine ⟨k', ?_, hs', hg'⟩
        rw [calcGradAux]
        simp only [hgi, opOf_setGrad, hok]
        exact hrk
      · next a b hop =>
        have hok : opOf k i = .Sub a b := (hs.2.1 i).symm.trans hop
        obtain ⟨k', hrk, hs', hg'⟩ :=
          calc_sim_pair ih hs hg hdis (by rw [hop]; rfl) hc
        refine ⟨k', ?_, hs', hg'⟩
        rw [calcGradAux]
        simp only [hgi, opOf_setGrad, hok]
        exact hrk
      · next a b hop =>
        have hok : opOf k i = .Mul a b := (hs.2.1 i).symm.trans hop
        split at hc
        · exact absurd hc (by simp)
        · next h2 hba =>
          split at hc
          · exact absurd hc (by simp)
          · next h3 hsb =>
            split at hc
            · next h4 hr1 =>
              split at hc
              · exact absurd hc (by simp)
              · next h6 hbb =>
                split at hc
                · exact absurd hc (by simp)
                · next h7 hsa =>
                  split at hc
                  · next h8 hr2 =>
                    simp only [BRes.ok.injEq] at hc
                    subst hc
                    obtain ⟨hfa, rfl⟩ := borrowMut_ok hba
                    obtain ⟨fb, hincb, rfl⟩ := borrowShared_ok hsb
                    have hs1 := hs.setGradBoth i (some ((gradOf h i).getD 0 + g))
                    have hg1 := hg.setGradSame i (some ((gradOf h i).getD 0 + g))
                    have hfak : flagOf (setGrad k i
                        (some ((gradOf h i).getD 0 + g))) a = .free :=
                      (hs1.2.2 a).symm.trans hfa
                    have hbak : borrowMut (setGrad k i
                        (some ((gradOf h i).getD 0 + g))) a
                        = some (setFlag (setGrad k i
                          (some ((gradOf h i).getD 0 + g))) a .mutb) := by
                      unfold borrowMut
                      rw [hfak]
                    have hs2 := hs1.setFlagBoth a .mutb
                    have hincbk : sharedInc (flagOf (setFlag (setGrad k i
                        (some ((gradOf h i).getD 0 + g))) a .mutb) b)
                        = some fb := by
                      rw [← hs2.2.2 b]
                      exact hincb
                    have hbsk : borrowShared (setFlag (setGrad k i
                        (some ((gradOf h i).getD 0 + g))) a .mutb) b
                        = some (setFlag (setFlag (setGrad k i
                          (some ((gradOf h i).getD 0 + g))) a .mutb) b fb) := by
                      unfold borrowShared
                      rw [hincbk]
                    have hs3 := hs2.setFlagBoth b fb
                    have hg3 := (hg1.setFlagKeep a a .mutb .mutb).setFlagKeep
                      b b fb fb
                    have hdis3 := dis_step hdis
                      (show a ∈ (opOf h i).kids by rw [hop]; simp [GradValOp.kids])
                      (fun j => (by simp : opOf h j = opOf (setFlag (setFlag
                        (setGrad h i (some ((gradOf h i).getD 0 + g))) a .mutb)
                        b fb) j))
                    obtain ⟨k4, hrk1, hs4, hg4⟩ :=
                      ih false a (g * valOf (setFlag (setFlag (setGrad h i
                        (some ((gradOf h i).getD 0 + g))) a .mutb) b fb) b)
                        _ _ h4 D hs3 hg3 hdis3 hr1
                    obtain ⟨_, io4, _, _⟩ := calc_frame _ _ _ _ _ _ hr1
                    have hval3 : valOf (setFlag (setFlag (setGrad k i
                        (some ((gradOf h i).getD 0 + g))) a .mutb) b fb) b
                        = valOf (setFlag (setFlag (setGrad h i
                        (some ((gradOf h i).getD 0 + g))) a .mutb) b fb) b :=
                      (hs3.1 b).symm
                    have hs5 := (hs4.releaseSharedBoth b).releaseMutBoth a
                    obtain ⟨hfb5, rfl⟩ := borrowMut_ok hbb
                    have hfb5k : flagOf (releaseMut (releaseShared k4 b) a) b
                        = .free := (hs5.2.2 b).symm.trans hfb5
                    have hbbk : borrowMut (releaseMut (releaseShared k4 b) a) b
                        = some (setFlag (releaseMut (releaseShared k4 b) a)
                          b .mutb) := by
                      unfold borrowMut
                      rw [hfb5k]
                    have hs6 := hs5.setFlagBoth b .mutb
                    obtain ⟨fa2, hinca, rfl⟩ := borrowShared_ok hsa
                    have hincak : sharedInc (flagOf (setFlag (releaseMut
                        (releaseShared k4 b) a) b .mutb) a) = some fa2 := by
                      rw [← hs6.2.2 a]
                      exact hinca
                    have hbsak : borrowShared (setFlag (releaseMut
                        (releaseShared k4 b) a) b .mutb) a
                        = some (setFlag (setFlag (releaseMut
                          (releaseShared k4 b) a) b .mutb) a fa2) := by
                      unfold borrowShared
                      rw [hincak]
                    have hs7 := hs6.setFlagBoth a fa2
                    have hg7 := ((((hg4.releaseSharedKeep b b).releaseMutKeep
                      a a).setFlagKeep b b .mutb .mutb).setFlagKeep a a fa2 fa2)
                    have hop7 : ∀ j, opOf h j = opOf (setFlag (setFlag (releaseMut
                        (releaseShared h4 b) a) b .mutb) a fa2) j := fun j => by
                      simp only [opOf_setFlag, opOf_releaseMut, opOf_releaseShared]
                      rw [io4 j]
                      simp
                    have hdis7 := dis_step hdis
                      (show b ∈ (opOf h i).kids by rw [hop]; simp [GradValOp.kids])
                      hop7
                    obtain ⟨k8, hrk2, hs8, hg8⟩ :=
                      ih false b (g * valOf (setFlag (setFlag (releaseMut
                        (releaseShared h4 b) a) b .mutb) a fa2) a)
                        _ _ h8 D hs7 hg7 hdis7 hr2
                    have hval7 : valOf (setFlag (setFlag (releaseMut
                        (releaseShared k4 b) a) b .mutb) a fa2) a
                        = valOf (setFlag (setFlag (releaseMut
                        (releaseShared h4 b) a) b .mutb) a fa2) a :=
                      (hs7.1 a).symm
                    refine ⟨releaseMut (releaseShared k8 a) b, ?_,
                      (hs8.releaseSharedBoth a).releaseMutBoth b,
                      fun j hj => ?_⟩
                    · rw [calcGradAux]
                      simp only [hgi, opOf_setGrad, hok, hbak, hbsk, hval3, hrk1,
                        hbbk, hbsak, hval7, hrk2]
                    · simp only [gradOf_releaseMut, gradOf_releaseShared]
                      exact hg8 j hj
                  · next hcontra => exact (hcontra h' hc).elim
            · next hcontra => exact (hcontra h' hc).elim
      · next a b hop =>
        have hok : opOf k i = .Div a b := (hs.2.1 i).symm.trans hop
        split at hc
        · exact absurd hc (by simp)
        · next av hrva =>
          split at hc
          · exact absurd hc (by simp)
          · next bv hrvb =>
            have hrvka := readVal_agree (hs.setGradBoth i _) hrva
            have hrvkb := readVal_agree (hs.setGradBoth i _) hrvb
            obtain ⟨k', hrk, hs', hg'⟩ :=
              calc_sim_pair ih hs hg hdis (by rw [hop]; rfl) hc
            refine ⟨k', ?_, hs', hg'⟩
            rw [calcGradAux]
            simp only [hgi, opOf_setGrad, hok, hrvka, hrvkb]
            exact hrk

/-! ## Properties of allocation and of a full backward pass -/

theorem valOf_alloc (s : Store) (v : ℝ) (op : GradValOp) :
    valOf (alloc s v op).1.heap (alloc s v op).2 = v := by
  simp [alloc, valOf, updCell, Cell.fresh]

theorem gradOf_alloc (s : Store) (v : ℝ) (op : GradValOp) :
    gradOf (alloc s v op).1.heap (alloc s v op).2 = none := by
  simp [alloc, gradOf, updCell, Cell.fresh]

theorem opOf_alloc (s : Store) (v : ℝ) (op : GradValOp) :
    opOf (alloc s v op).1.heap (alloc s v op).2 = op := by
  simp [alloc, opOf, updCell, Cell.fresh]

theorem valOf_alloc_ne (s : Store) (v : ℝ) (op : GradValOp) {j : Nat}
    (hj : j ≠ s.next) : valOf (alloc s v op).1.heap j = valOf s.heap j := by
  simp [alloc, valOf, updCell, hj]

theorem opOf_alloc_ne (s : Store) (v : ℝ) (op : GradValOp) {j : Nat}
    (hj : j ≠ s.next) : opOf (alloc s v op).1.heap j = opOf s.heap j := by
  simp [alloc, opOf, updCell, hj]

theorem backward_frame_core {f r : Nat} {h h' : Heap}
    (hb : backward f h r = .ok h') :
    (∀ j, valOf h' j = valOf h j) ∧ (∀ j, opOf h' j = opOf h j) ∧
    (∀ j, flagOf h' j = flagOf h j) ∧
    (∀ j, ¬ Reaches h r j → gradOf h' j = gradOf h j) := by
  unfold backward at hb
  split at hb
  · next hR hrst =>
    obtain ⟨rv, ro, rf, rg⟩ := reset_frame _ _ _ _ hrst
    obtain ⟨cv, co, cf, cg⟩ := calc_frame _ _ _ _ _ _ hb
    refine ⟨fun j => (cv j).trans (rv j), fun j => (co j).trans (ro j),
      fun j => (cf j).trans (rf j), fun j hj => ?_⟩
    have hjR : ¬ Reaches hR r j := fun hr => hj (reaches_congr ro hr)
    exact (cg j hjR).trans (rg j hj)
  · next hne => exact ((hne h') hb).elim

theorem backward_visits_core {f r : Nat} {h h' : Heap}
    (hb : backward f h r = .ok h') :
    ∀ j, Reaches h r j → (gradOf h' j).isSome := by
  unfold backward at hb
  split at hb
  · next hR hrst =>
    obtain ⟨_, ro, _, _⟩ := reset_frame _ _ _ _ hrst
    intro j hr
    exact (calc_grads _ _ _ _ _ _ hb).2 j
      (reaches_congr (fun j => (ro j).symm) hr)
  · next hne => exact ((hne h') hb).elim

theorem backward_repeat_core {f r s : Nat} {h h1 : Heap}
    (hb : backward f h r = .ok h1) :
    backward f h1 r = .ok h1 ∧
    (∀ h2, backward f h1 s = .ok h2 →
      ∃ h2', backward f h s = .ok h2' ∧
        ∀ i, Reaches h s i → gradOf h2 i = gradOf h2' i) := by
  obtain ⟨bv, bo, bf, bg⟩ := backward_frame_core hb
  have hside : SideAgree h h1 :=
    ⟨fun j => (bv j).symm, fun j => (bo j).symm, fun j => (bf j).symm⟩
  have hgrad : GradAgree (fun j => Reaches h r j) h h1 :=
    fun j hj => (bg j hj).symm
  constructor
  · unfold backward at hb ⊢
    split at hb
    · next hR hrst =>
      obtain ⟨k', hrk, hs', hg'⟩ := reset_sim f r h h1 hR _ hside hgrad hrst
      have hgall : ∀ j, gradOf hR j = gradOf k' j :=
        fun j => hg' j (fun hp => hp.2 hp.1)
      have hkR : k' = hR := (heap_ext hs' hgall).symm
      subst hkR
      simp only [hrk]
      exact hb
    · next hne => exact ((hne h1) hb).elim
  · intro h2 hb2
    have hside' : SideAgree h1 h := ⟨fun j => bv j, fun j => bo j, fun j => bf j⟩
    have hgrad' : GradAgree (fun j => Reaches h r j) h1 h := fun j hj => bg j hj
    unfold backward at hb2
    split at hb2
    · next u1 hrst2 =>
      obtain ⟨u, hru, hsu, hgu⟩ := reset_sim f s h1 h u1 _ hside' hgrad' hrst2
      obtain ⟨ro2, _⟩ := (reset_frame _ _ _ _ hrst2).2
      have hdis : ∀ j, (Reaches h r j ∧ ¬ Reaches h1 s j) → ¬ Reaches u1 s j :=
        fun j hD hr => hD.2 (reaches_congr ro2 hr)
      obtain ⟨h2', hrc2, hs2, hg2⟩ := calc_sim f true s 1 u1 u h2 _ hsu hgu hdis hb2
      refine ⟨h2', ?_, fun i hi => ?_⟩
      · unfold backward
        simp only [hru]
        exact hrc2
      · exact hg2 i (fun hD => hD.2 (reaches_congr (fun j => (bo j).symm) hi))
    · next hne => exact ((hne h2) hb2).elim

theorem divBound_alloc {s : Store} (hd : DivBound s) (v : ℝ) (op : GradValOp)
    (hop : ∀ a b, op = .Div a b → b < s.next ∧ valOf s.heap b ≠ 0) :
    DivBound (alloc s v op).1 := by
  intro i a b hdiv
  have hnext : (alloc s v op).1.next = s.next + 1 := rfl
  rw [hnext]
  by_cases hi : i = s.next
  · subst hi
    rw [show opOf (alloc s v op).1.heap s.next = op from opOf_alloc s v op] at hdiv
    obtain ⟨hb, hnz⟩ := hop a b hdiv
    refine ⟨Nat.lt_succ_of_lt hb, ?_⟩
    rw [valOf_alloc_ne _ _ _ (Nat.ne_of_lt hb)]
    exact hnz
  · rw [opOf_alloc_ne _ _ _ hi] at hdiv
    obtain ⟨hb, hnz⟩ := hd i a b hdiv
    refine ⟨Nat.lt_succ_of_lt hb, ?_⟩
    rw [valOf_alloc_ne _ _ _ (Nat.ne_of_lt hb)]
    exact hnz

theorem built_divBound : ∀ s : Store, Built s → DivBound s := by
  intro s hB
  induction hB with
  | empty =>
    intro i a b hdiv
    have he : opOf emptyStore.heap i = .Noop := rfl
    rw [he] at hdiv
    exact absurd hdiv (by simp)
  | leaf s v _ ih => exact divBound_alloc ih _ .Noop (fun a b h => nomatch h)
  | neg s i _ ih => exact divBound_alloc ih _ (.Neg i) (fun a b h => nomatch h)
  | add s i j _ ih => exact divBound_alloc ih _ (.Add i j) (fun a b h => nomatch h)
  | sub s i j _ ih => exact divBound_alloc ih _ (.Sub i j) (fun a b h => nomatch h)
  | mul s i j _ ih => exact divBound_alloc ih _ (.Mul i j) (fun a b h => nomatch h)
  | exp s i _ ih => exact divBound_alloc ih _ (.Exp i) (fun a b h => nomatch h)
  | log s i _ ih => exact divBound_alloc ih _ (.Log i) (fun a b h => nomatch h)
  | pow s i j _ ih => exact divBound_alloc ih _ (.Pow i j) (fun a b h => nomatch h)
  | powf s i c _ ih =>
    exact divBound_alloc
      (divBound_alloc ih _ .Noop (fun a b h => nomatch h)) _
      (.Pow i (mkLeaf s c).2) (fun a b h => nomatch h)
  | div s i j st k _ hj hmk ih =>
    unfold mkDiv at hmk
    split at hmk
    · exact absurd hmk (by simp)
    · next hnz =>
      simp only [BRes.ok.injEq] at hmk
      have hst : (alloc s (valOf s.heap i / valOf s.heap j) (.Div i j)).1 = st :=
        congrArg Prod.fst hmk
      subst hst
      refine divBound_alloc ih _ _ (fun a b h => ?_)
      cases h
      exact ⟨hj, hnz⟩
  | bwd s r fuel h' _ hb ih =>
    obtain ⟨bv, bo, _, _⟩ := backward_frame_core hb
    intro i a b hdiv
    rw [show opOf (Store.mk h' s.next).heap i = opOf h' i from rfl, bo i] at hdiv
    obtain ⟨h1, h2⟩ := ih i a b hdiv
    refine ⟨h1, ?_⟩
    rw [show valOf (Store.mk h' s.next).heap b = valOf h' b from rfl, bv b]
    exact h2

theorem gradOf_calcEnter_same (h : Heap) (i : Nat) (p : ℝ) :
    gradOf (calcEnter h i p) i = some ((gradOf h i).getD 0 + p) := by
  simp [calcEnter]

theorem gradOf_calcEnter_ne (h : Heap) (i : Nat) (p : ℝ) {j : Nat}
    (hj : j ≠ i) : gradOf (calcEnter h i p) j = gradOf h j := by
  unfold calcEnter
  rw [gradOf_setGrad_ne _ _ _ _ hj, gradOf_setFlag]

theorem opOf_calcEnter (h : Heap) (i : Nat) (p : ℝ) (j : Nat) :
    opOf (calcEnter h i p) j = opOf h j := by
  simp [calcEnter]

theorem valOf_calcEnter (h : Heap) (i : Nat) (p : ℝ) (j : Nat) :
    valOf (calcEnter h i p) j = valOf h j := by
  simp [calcEnter]

theorem flagOf_calcEnter_ne (h : Heap) (i : Nat) (p : ℝ) {j : Nat}
    (hj : j ≠ i) : flagOf (calcEnter h i p) j = flagOf h j := by
  unfold calcEnter
  rw [flagOf_setGrad, flagOf_setFlag_ne _ _ _ _ hj]

theorem gradOf_leafStep_same (h : Heap) (i : Nat) (p : ℝ) :
    gradOf (leafStep h i p) i = some ((gradOf h i).getD 0 + p) := by
  unfold leafStep
  rw [gradOf_releaseMut, gradOf_calcEnter_same]

theorem gradOf_leafStep_ne (h : Heap) (i : Nat) (p : ℝ) {j : Nat}
    (hj : j ≠ i) : gradOf (leafStep h i p) j = gradOf h j := by
  unfold leafStep
  rw [gradOf_releaseMut, gradOf_calcEnter_ne _ _ _ hj]

theorem opOf_leafStep (h : Heap) (i : Nat) (p : ℝ) (j : Nat) :
    opOf (leafStep h i p) j = opOf h j := by
  simp [leafStep, calcEnter]

theorem valOf_leafStep (h : Heap) (i : Nat) (p : ℝ) (j : Nat) :
    valOf (leafStep h i p) j = valOf h j := by
  simp [leafStep, calcEnter]

theorem flagOf_leafStep_ne (h : Heap) (i : Nat) (p : ℝ) {j : Nat}
    (hj : j ≠ i) : flagOf (leafStep h i p) j = flagOf h j := by
  unfold leafStep
  rw [flagOf_releaseMut, if_neg hj, flagOf_calcEnter_ne _ _ _ hj]

theorem calc_leaf_call (f i : Nat) (p : ℝ) (h : Heap)
    (hfree : flagOf h i = .free) (hop : opOf h i = .Noop) :
    calcGradAux (f + 2) true i p h = .ok (leafStep h i p) := by
  have e1 : f + 2 = (f + 1) + 1 := rfl
  rw [e1, calcGradAux]
  have hbm : borrowMut h i = some (setFlag h i .mutb) := by
    unfold borrowMut
    rw [hfree]
  simp only [hbm]
  rw [calcGradAux]
  simp only [opOf_setGrad, opOf_setFlag, hop, gradOf_setFlag]
  rfl

/-- Claim C6: when the accumulate pass reaches a `Pow(a, b)` node with incoming
gradient `g`, it pushes `b.value * a.value^(b.value - 1) * g` to `a` and
`ln(a.value) * a.value^b.value * g` to `b`; the run never aborts, whatever
the sign of `a.value` (stated for leaf operands so that the two pushed
amounts appear directly as the final accumulated gradients). -/
theorem pow_backward_pushes (f : Nat) (h : Heap) (i a b : Nat) (g : ℝ)
    (hop : opOf h i = .Pow a b) (hoa : opOf h a = .Noop) (hob : opOf h b = .Noop)
    (hia : a ≠ i) (hib : b ≠ i) (hab : a ≠ b)
    (hfi : flagOf h i = .free) (hfa : flagOf h a = .free)
    (hfb : flagOf h b = .free) :
    ∃ h', calcGradRecursively (f + 4) i g h = .ok h' ∧
      gradOf h' a = some ((gradOf h a).getD 0 +
        valOf h b * Real.rpow (valOf h a) (valOf h b - 1) * g) ∧
      gradOf h' b = some ((gradOf h b).getD 0 +
        Real.log (valOf h a) * Real.rpow (valOf h a) (valOf h b) * g) := by
  have hfH1a : flagOf (calcEnter h i g) a = .free := by
    rw [flagOf_calcEnter_ne _ _ _ hia]
    exact hfa
  have hfH1b : flagOf (calcEnter h i g) b = .free := by
    rw [flagOf_calcEnter_ne _ _ _ hib]
    exact hfb
  have hoH1a : opOf (calcEnter h i g) a = .Noop := by
    rw [opOf_calcEnter]
    exact hoa
  have hrva : readVal (calcEnter h i g) a = some (valOf h a) := by
    unfold readVal
    rw [hfH1a]
    simp [valOf_calcEnter]
  have hrvb : readVal (calcEnter h i g) b = some (valOf h b) := by
    unfold readVal
    rw [hfH1b]
    simp [valOf_calcEnter]
  have hbm : borrowMut h i = some (setFlag h i .mutb) := by
    unfold borrowMut
    rw [hfi]
  have hca := calc_leaf_call f a
    (valOf h b * Real.rpow (valOf h a) (valOf h b - 1) * g) (calcEnter h i g)
    hfH1a hoH1a
  have hfHab : flagOf (leafStep (calcEnter h i g) a
      (valOf h b * Real.rpow (valOf h a) (valOf h b - 1) * g)) b = .free := by
    rw [flagOf_leafStep_ne _ _ _ (Ne.symm hab)]
    exact hfH1b
  have hoHab : opOf (leafStep (calcEnter h i g) a
      (valOf h b * Real.rpow (valOf h a) (valOf h b - 1) * g)) b = .Noop := by
    rw [opOf_leafStep, opOf_calcEnter]
    exact hob
  have hcb := calc_leaf_call f b
    (Real.log (valOf h a) * Real.rpow (valOf h a) (valOf h b) * g)
    (leafStep (calcEnter h i g) a
      (valOf h b * Real.rpow (valOf h a) (valOf h b - 1) * g))
    hfHab hoHab
  have hrun : calcGradRecursively (f + 4) i g h =
      .ok (releaseMut (leafStep (leafStep (calcEnter h i g) a
        (valOf h b * Real.rpow (valOf h a) (valOf h b - 1) * g)) b
        (Real.log (valOf h a) * Real.rpow (valOf h a) (valOf h b) * g)) i) := by
    rw [calcGradRecursively, show f + 4 = (f + 3) + 1 from rfl, calcGradAux]
    simp only [hbm]
    rw [show f + 3 = (f + 2) + 1 from rfl, calcGradAux]
    simp only [opOf_setGrad, opOf_setFlag, hop, gradOf_setFlag]
    rw [show setGrad (setFlag h i BorrowFlag.mutb) i
      (some ((gradOf h i).getD 0 + g)) = calcEnter h i g from rfl]
    simp only [hrva, hrvb, hca, hcb]
  refine ⟨_, hrun, ?_, ?_⟩
  · rw [gradOf_releaseMut, gradOf_leafStep_ne _ _ _ hab, gradOf_leafStep_same,
      gradOf_calcEnter_ne _ _ _ hia]
  · rw [gradOf_releaseMut, gradOf_leafStep_same,
      gradOf_leafStep_ne _ _ _ (Ne.symm hab), gradOf_calcEnter_ne _ _ _ hib]

/-! ## The claims -/

/-- Claim C1 (code bug): from `x = GradVal::from(3.0)`, building
`y = &x * &x` (both `Mul` operands the same cell) and calling
`y.backward()` does not set `x.grad()` to `6.0`: the `Mul` arm of
`calc_grad_recursively` evaluates the receiver `a.borrow_mut()` before
the argument `grad * b.borrow()._val`, and with `a` and `b` the same
cell the `borrow()` hits an active `RefMut`, so the whole run aborts
with a `RefCell` double-borrow panic. -/
theorem mul_shared_operand_backward_aborts :
    backward 10 sharedMulStore.heap 1 = .abort := rfl

/-- Claim C2: `a / b` panics exactly when the divisor's current value is
`0.0`; otherwise it returns a fresh handle holding the quotient, and no
abort occurs. -/
theorem div_by_zero_aborts_iff (s : Store) (i j : Nat) :
    (mkDiv s i j = .abort ↔ valOf s.heap j = 0) ∧
    (valOf s.heap j ≠ 0 → ∃ st k, mkDiv s i j = .ok (st, k) ∧
      valOf st.heap k = valOf s.heap i / valOf s.heap j) := by
  unfold mkDiv
  by_cases hz : valOf s.heap j = 0
  · rw [if_pos hz]
    constructor
    · exact Iff.intro (fun _ => hz) (fun _ => rfl)
    · exact fun hnz => absurd hz hnz
  · rw [if_neg hz]
    exact ⟨⟨fun habs => (nomatch habs), fun hz' => absurd hz' hz⟩,
      fun _ => ⟨_, _, rfl, valOf_alloc _ _ _⟩⟩

theorem div_by_zero_aborts_iff_witness :
    valOf divStore.heap 1 ≠ 0 ∧ ∃ st k, mkDiv divStore 0 1 = .ok (st, k) ∧
      valOf st.heap k = valOf divStore.heap 0 / valOf divStore.heap 1 := by
  have hnz : valOf divStore.heap 1 ≠ 0 := by
    rw [show valOf divStore.heap 1 = 2 from rfl]
    norm_num
  exact ⟨hnz, (div_by_zero_aborts_iff divStore 0 1).2 hnz⟩

/-- Claim C3: running `backward()` twice from the same root (with the
same fuel) reproduces the heap exactly, so every reachable node reads
the same gradient both times; and running `backward()` from another root
`s` on the already-differentiated heap yields, on every node of `s`'s
subgraph, the same gradients as running it on the original heap — the
reset phase erases the previous pass instead of accumulating into it. -/
theorem backward_repeatable (f r s : Nat) (h h1 : Heap)
    (hb : backward f h r = .ok h1) :
    backward f h1 r = .ok h1 ∧
    (∀ h2, backward f h1 s = .ok h2 →
      ∃ h2', backward f h s = .ok h2' ∧
        ∀ i, Reaches h s i → gradOf h2 i = gradOf h2' i) :=
  backward_repeat_core hb

theorem backward_repeatable_witness :
    ∃ h1, backward 10 addMulStore.heap 2 = .ok h1 ∧
      (backward 10 h1 2 = .ok h1 ∧
       (∀ h2, backward 10 h1 3 = .ok h2 →
         ∃ h2', backward 10 addMulStore.heap 3 = .ok h2' ∧
           ∀ i, Reaches addMulStore.heap 3 i → gradOf h2 i = gradOf h2' i)) :=
  ⟨_, rfl, backward_repeatable 10 2 3 addMulStore.heap _ rfl⟩

/-- Claim C4: for every operator the freshly constructed node's value is
the corresponding mathematical operation applied to the operand values
at construction time (scalars modelled over `ℝ`; `div` needs a nonzero
divisor, in which case construction succeeds with the quotient). -/
theorem forward_values (s : Store) (i j : Nat) (v c : ℝ)
    (hi : i < s.next) (_hj : j < s.next) :
    valOf (mkLeaf s v).1.heap (mkLeaf s v).2 = v ∧
    valOf (mkNeg s i).1.heap (mkNeg s i).2 = -valOf s.heap i ∧
    valOf (mkAdd s i j).1.heap (mkAdd s i j).2 = valOf s.heap i + valOf s.heap j ∧
    valOf (mkSub s i j).1.heap (mkSub s i j).2 = valOf s.heap i - valOf s.heap j ∧
    valOf (mkMul s i j).1.heap (mkMul s i j).2 = valOf s.heap i * valOf s.heap j ∧
    valOf (mkExp s i).1.heap (mkExp s i).2 = Real.exp (valOf s.heap i) ∧
    valOf (mkLog s i).1.heap (mkLog s i).2 = Real.log (valOf s.heap i) ∧
    valOf (mkPow s i j).1.heap (mkPow s i j).2
      = Real.rpow (valOf s.heap i) (valOf s.heap j) ∧
    valOf (mkPowf s i c).1.heap (mkPowf s i c).2
      = Real.rpow (valOf s.heap i) c ∧
    (valOf s.heap j ≠ 0 → ∃ st k, mkDiv s i j = .ok (st, k) ∧
      valOf st.heap k = valOf s.heap i / valOf s.heap j) := by
  refine ⟨valOf_alloc _ _ _, valOf_alloc _ _ _, valOf_alloc _ _ _,
    valOf_alloc _ _ _, valOf_alloc _ _ _, valOf_alloc _ _ _, valOf_alloc _ _ _,
    valOf_alloc _ _ _, ?_, fun hnz => ?_⟩
  · simp only [mkPowf, mkPow, mkLeaf]
    rw [valOf_alloc, valOf_alloc, valOf_alloc_ne s c .Noop (Nat.ne_of_lt hi)]
  · unfold mkDiv
    rw [if_neg hnz]
    exact ⟨_, _, rfl, valOf_alloc _ _ _⟩

theorem forward_values_witness :
    (0 < divStore.next ∧ 1 < divStore.next ∧ valOf divStore.heap 1 ≠ 0) ∧
    ∃ st k, mkDiv divStore 0 1 = .ok (st, k) ∧
      valOf st.heap k = valOf divStore.heap 0 / valOf divStore.heap 1 := by
  have h0 : (0:Nat) < divStore.next := by decide
  have h1 : (1:Nat) < divStore.next := by decide
  have hnz : valOf divStore.heap 1 ≠ 0 := by
    rw [show valOf divStore.heap 1 = 2 from rfl]
    norm_num
  exact ⟨⟨h0, h1, hnz⟩,
    (forward_values divStore 0 1 7 3 h0 h1).2.2.2.2.2.2.2.2.2 hnz⟩

/-- Claim C5: for any value `v`, building `y = x.exp().log()` from the
leaf `x = GradVal::from(v)` and calling `y.backward()` gives
`x.grad() == 1.0` (scalars modelled over `ℝ`, where
`exp(v) * (1 / exp(v)) = 1` holds exactly). -/
theorem chain_rule_exp_log (v : ℝ) :
    ∃ h', backward 12 (chainStore v).heap 2 = .ok h' ∧ gradOf h' 0 = some 1 := by
  refine ⟨_, rfl, ?_⟩
  norm_num [chainStore, gradOf, updCell, setGrad, setFlag, valOf, opOf, flagOf,
    releaseMut, releaseShared, mkLeaf, mkExp, mkLog, alloc, emptyStore,
    Cell.fresh, Real.exp_ne_zero]

theorem pow_backward_pushes_witness :
    ∃ h', calcGradRecursively 4 2 1 powHeap = .ok h' ∧
      gradOf h' 0 = some ((gradOf powHeap 0).getD 0 +
        valOf powHeap 1 * Real.rpow (valOf powHeap 0) (valOf powHeap 1 - 1) * 1) ∧
      gradOf h' 1 = some ((gradOf powHeap 1).getD 0 +
        Real.log (valOf powHeap 0) * Real.rpow (valOf powHeap 0) (valOf powHeap 1) * 1) :=
  pow_backward_pushes 0 powHeap 2 0 1 1 rfl rfl rfl (by decide) (by decide)
    (by decide) rfl rfl rfl

/-- Claim C7: after a successful `backward()` from root `r`, every node
of `r`'s subgraph holds a present gradient, and the gradient of every
node outside that subgraph is exactly what it was before the call (in
particular still absent on a freshly built graph). -/
theorem grad_visibility (f r : Nat) (h h' : Heap)
    (hb : backward f h r = .ok h') :
    (∀ i, Reaches h r i → (gradOf h' i).isSome) ∧
    (∀ i, ¬ Reaches h r i → gradOf h' i = gradOf h i) :=
  ⟨backward_visits_core hb, fun i hi => (backward_frame_core hb).2.2.2 i hi⟩

theorem grad_visibility_witness :
    ∃ h', backward 10 addMulStore.heap 2 = .ok h' ∧
      ((gradOf h' 0).isSome ∧ gradOf h' 3 = gradOf addMulStore.heap 3) := by
  refine ⟨_, rfl, ?_, ?_⟩
  · exact (grad_visibility 10 2 addMulStore.heap _ rfl).1 0 (Reaches.of_kid (by
      rw [show opOf addMulStore.heap 2 = .Add 0 1 from rfl]
      simp [GradValOp.kids]))
  · refine (grad_visibility 10 2 addMulStore.heap _ rfl).2 3 ?_
    intro hr
    rcases reaches_cases_head hr with he | ⟨c, hck, hcr⟩
    · exact absurd he (by decide)
    · rw [show opOf addMulStore.heap 2 = .Add 0 1 from rfl] at hck
      simp only [GradValOp.kids, List.mem_cons, List.mem_singleton] at hck
      rcases hck with rfl | hck
      · rcases reaches_cases_head hcr with he | ⟨d, hdk, _⟩
        · exact absurd he (by decide)
        · rw [show opOf addMulStore.heap 0 = .Noop from rfl] at hdk
          simp [GradValOp.kids] at hdk
      · rcases hck with rfl | hck
        · rcases reaches_cases_head hcr with he | ⟨d, hdk, _⟩
          · exact absurd he (by decide)
          · rw [show opOf addMulStore.heap 1 = .Noop from rfl] at hdk
            simp [GradValOp.kids] at hdk
        · simp at hck

/-- Claim C8: a successful backward pass changes only `_grad` fields:
every cell keeps its `_val`, its `_op` (hence the whole graph structure,
with no node created or destroyed) and its borrow flag. -/
theorem backward_mutates_only_grads (f r : Nat) (h h' : Heap)
    (hb : backward f h r = .ok h') :
    (∀ j, valOf h' j = valOf h j) ∧ (∀ j, opOf h' j = opOf h j) ∧
    (∀ j, flagOf h' j = flagOf h j) :=
  ⟨(backward_frame_core hb).1, (backward_frame_core hb).2.1,
    (backward_frame_core hb).2.2.1⟩

theorem backward_mutates_only_grads_witness :
    ∃ h', backward 10 addMulStore.heap 3 = .ok h' ∧
      ((∀ j, valOf h' j = valOf addMulStore.heap j) ∧
       (∀ j, opOf h' j = opOf addMulStore.heap j) ∧
       (∀ j, flagOf h' j = flagOf addMulStore.heap j)) :=
  ⟨_, rfl, backward_mutates_only_grads 10 3 _ _ rfl⟩

/-- Claim C9: a freshly constructed leaf `GradVal::from(v)` has an absent
gradient, while its value accessor returns `v`. -/
theorem leaf_fresh_grad_none (s : Store) (v : ℝ) :
    gradOf (mkLeaf s v).1.heap (mkLeaf s v).2 = none ∧
    valOf (mkLeaf s v).1.heap (mkLeaf s v).2 = v :=
  ⟨gradOf_alloc _ _ _, valOf_alloc _ _ _⟩

/-- Claim C10: in every store constructible through the public API
(constructors plus `backward`), the divisor cell of every `Div` node
holds a nonzero value — construction aborts on a zero divisor and values
are never mutated afterwards — so the quantities the backward `Div` arm
divides by (`b.value` and `b.value^2`) are never zero. -/
theorem div_divisor_nonzero (s : Store) (hs : Built s) (i a b : Nat)
    (hop : opOf s.heap i = .Div a b) :
    valOf s.heap b ≠ 0 ∧ (valOf s.heap b) ^ 2 ≠ 0 := by
  obtain ⟨_, hnz⟩ := built_divBound s hs i a b hop
  exact ⟨hnz, pow_ne_zero 2 hnz⟩

theorem div_divisor_nonzero_witness :
    ∃ st : Store, Built st ∧ opOf st.heap 2 = .Div 0 1 ∧
      (valOf st.heap 1 ≠ 0 ∧ (valOf st.heap 1) ^ 2 ≠ 0) := by
  have hnz : valOf divStore.heap 1 ≠ 0 := by
    rw [show valOf divStore.heap 1 = 2 from rfl]
    norm_num
  have hmk : mkDiv divStore 0 1 = .ok (alloc divStore
      (valOf divStore.heap 0 / valOf divStore.heap 1) (.Div 0 1)) := by
    unfold mkDiv
    rw [if_neg hnz]
  have hbuilt : Built (alloc divStore
      (valOf divStore.heap 0 / valOf divStore.heap 1) (.Div 0 1)).1 :=
    Built.div divStore 0 1 _ _
      (Built.leaf _ _ (Built.leaf _ _ Built.empty)) (by decide) hmk
  refine ⟨_, hbuilt, rfl, ?_⟩
  exact div_divisor_nonzero _ hbuilt 2 0 1 rfl
